import Mathlib

/-!
Shallow embedding of the bluesky TIFF-export core
(`src/bluesky/datanaming.py` and `src/bluesky/tiffexporter.py`).

Strings are modelled as `List Char`; path manipulation follows CPython's
`posixpath` semantics; file modification times are rationals (the source
uses floating-point seconds, modelled exactly); the filesystem is an
explicit value threaded through the operations.
-/

deriving instance DecidableEq for Except

namespace Bluesky

/-- Python strings, modelled as lists of characters. -/
abbrev Str := List Char

/-- Convert a Lean string literal to the `Str` model. -/
def strOf (s : String) : Str := s.data

/-! ## posixpath primitives (CPython semantics) -/

/-- `posixpath.isabs`: path starts with a slash. -/
def isAbs (p : Str) : Bool :=
  match p with
  | '/' :: _ => true
  | _ => false

/-- `posixpath.join a b` for a single extra component `b`. -/
def joinPath (a b : Str) : Str :=
  if isAbs b then b
  else if a = [] ∨ a.getLast? = some '/' then a ++ b
  else a ++ '/' :: b

/-- Index of the last occurrence of `c` in `p` (Python `str.rfind`). -/
def lastIdxOf (c : Char) (p : Str) : Option Nat :=
  match p.reverse.findIdx? (· == c) with
  | none => none
  | some j => some (p.length - 1 - j)

/-- `posixpath.normpath`: collapse separators, `.` and `..` components. -/
def normpath (p : Str) : Str :=
  if p = [] then ['.']
  else
    let initialSlashes : Nat :=
      if p.take 1 = strOf "/" then
        if p.take 2 = strOf "//" ∧ p.take 3 ≠ strOf "///" then 2 else 1
      else 0
    let comps := (p.splitOn '/').filter (fun c => !(c == []) && !(c == strOf "."))
    let newComps := comps.foldl (fun acc comp =>
      if comp ≠ strOf ".." ∨ (initialSlashes = 0 ∧ acc = []) ∨
          acc.getLast? = some (strOf "..") then
        acc ++ [comp]
      else if acc ≠ [] then acc.dropLast
      else acc) []
    let path := List.replicate initialSlashes '/' ++ List.intercalate (strOf "/") newComps
    if path = [] then ['.'] else path

/-- `posixpath.dirname`. -/
def dirname (p : Str) : Str :=
  let head :=
    match lastIdxOf '/' p with
    | none => []
    | some i => p.take (i + 1)
  if head ≠ [] ∧ head.any (· ≠ '/') then
    (head.reverse.dropWhile (· == '/')).reverse
  else head

/-- `posixpath.basename`. -/
def basename (p : Str) : Str :=
  match lastIdxOf '/' p with
  | none => p
  | some i => p.drop (i + 1)

/-- `posixpath.splitext`: split off the extension at the last dot of the
last component, ignoring leading dots of that component. -/
def splitext (p : Str) : Str × Str :=
  let sepIdx : Int := match lastIdxOf '/' p with | none => -1 | some i => (i : Int)
  let dotIdx : Int := match lastIdxOf '.' p with | none => -1 | some i => (i : Int)
  if sepIdx < dotIdx then
    let fnIdx := (sepIdx + 1).toNat
    if ((p.drop fnIdx).take (dotIdx.toNat - fnIdx)).any (· ≠ '.') then
      (p.take dotIdx.toNat, p.drop dotIdx.toNat)
    else (p, [])
  else (p, [])

/-- `os.path.abspath` against an explicit current working directory. -/
def abspath (cwd p : Str) : Str :=
  normpath (if isAbs p then p else joinPath cwd p)

/-- Python `str.endswith` for a single suffix. -/
def endswith (p suf : Str) : Bool := suf.isSuffixOf p

/-! ## Filesystem model -/

/-- A filesystem snapshot: current directory, regular files (normalized
absolute path with modification time), directories (normalized absolute
paths) and the current wall-clock time used for fresh writes. -/
structure FS where
  cwd : Str
  files : List (Str × Rat)
  dirs : List Str
  now : Rat := 0
deriving DecidableEq

/-- Resolve a (possibly relative) path against the snapshot's cwd. -/
def FS.resolve (fs : FS) (p : Str) : Str := abspath fs.cwd p

/-- `os.path.isfile`. -/
def FS.isfile (fs : FS) (p : Str) : Bool :=
  (fs.files.find? (fun e => e.1 == fs.resolve p)).isSome

/-- `os.path.isdir`. -/
def FS.isdir (fs : FS) (p : Str) : Bool :=
  fs.dirs.contains (fs.resolve p)

/-- `os.path.exists`. -/
def FS.pexists (fs : FS) (p : Str) : Bool :=
  fs.isfile p || fs.isdir p

/-- `os.path.getmtime`, defaulting to `0` for a missing file (the source
only queries mtimes of files it has just listed). -/
def FS.getmtime (fs : FS) (p : Str) : Rat :=
  ((fs.files.find? (fun e => e.1 == fs.resolve p)).map Prod.snd).getD 0

/-- `os.listdir`: entry names of a directory, or `none` (OSError) when the
directory does not exist. -/
def FS.listdir (fs : FS) (d : Str) : Option (List Str) :=
  if fs.isdir d then
    some ((fs.files.map Prod.fst ++ fs.dirs).filterMap (fun q =>
      if dirname q == fs.resolve d && q != fs.resolve d then some (basename q) else none))
  else none

/-- Python exception classes distinguished by the source code. -/
inductive PyErr where
  | attrError
  | keyError
  | valueError
  | typeError
  | osError
  | indexError
deriving DecidableEq

/-! ## TiffExporter.outputFileExists -/

/-- `TiffExporter` class attributes that the matching logic reads. -/
structure TiffCfg where
  set_mtime : Bool := true
  mtime_window : Rat := mkRat 1 20
deriving DecidableEq

/-- Python's `abs` on (rational-modelled) floats. -/
def pabs (x : Rat) : Rat := if x < 0 then -x else x

/-- Subtraction on `Rat` written through `mkRat` so that it evaluates by
kernel reduction (the library's `Rat.sub` is `@[irreducible]`); it agrees
with `Rat.sub`. -/
def rsub (a b : Rat) : Rat := mkRat (a.num * b.den - b.num * a.den) (a.den * b.den)

/-- Truthiness of the `mtime` argument (`if not mtime`): `None` and `0`
are falsy. -/
def truthyTime : Option Rat → Bool
  | none => false
  | some x => x != 0

/-- `TiffExporter.outputFileExists`.  The `dircache` argument of the source
is pure memoization of `os.listdir` over an unchanging filesystem and is
dropped; the `assert rv[0] == f` on the exact-match entry cannot fail on a
consistent filesystem (a listed regular file passes `os.path.exists`).
Note the source's `ext = os.path.splitext(filename)` binds the whole
`(root, ext)` pair, so `f.endswith(ext)` tests both components. -/
def outputFileExists (cfg : TiffCfg) (fs : FS) (filename : Str) (mtime : Option Rat) :
    Except PyErr (List Str) :=
  let fa := abspath fs.cwd filename
  let rv := if fs.pexists filename then [fa] else []
  if ¬ truthyTime mtime then .ok rv
  else
    let m := mtime.getD 0
    let outputdir := abspath fs.cwd (dirname filename)
    let ext := splitext filename
    match fs.listdir outputdir with
    | none => .error .osError
    | some names =>
      let ofiles := (names.map (fun f => joinPath outputdir f)).filter
        (fun f => (endswith f ext.1 || endswith f ext.2) && fs.isfile f)
      .ok (rv ++ ofiles.filterMap (fun f =>
        if f == fa then none
        else if pabs (rsub (fs.getmtime f) m) < cfg.mtime_window then some f else none))

/-! ## DataNaming: template splitting and validation -/

/-- `(l.dropWhile p).length ≤ l.length`. -/
theorem length_dropWhile_le' (p : Char → Bool) (l : Str) :
    (l.dropWhile p).length ≤ l.length := by
  induction l with
  | nil => simp [List.dropWhile]
  | cons c rest ih =>
    simp only [List.dropWhile]
    split
    · exact Nat.le_trans ih (Nat.le_succ _)
    · exact Nat.le_refl _

/-- `l.contains a = true` implies membership. -/
theorem mem_of_contains {a : Char} {l : Str} (h : l.contains a = true) : a ∈ l := by
  induction l with
  | nil => simp [List.contains, List.elem] at h
  | cons c rest ih =>
    simp only [List.contains, List.elem] at h ih
    cases hac : (a == c) with
    | true => exact List.mem_cons.mpr (Or.inl (eq_of_beq hac))
    | false =>
      simp only [hac] at h
      exact List.mem_cons.mpr (Or.inr (ih h))

/-- If `a ∈ l` then dropping the prefix of elements different from `a`
leaves a nonempty list. -/
theorem dropWhile_ne_nil_of_mem {a : Char} {l : Str} (h : a ∈ l) :
    l.dropWhile (fun c => c != a) ≠ [] := by
  induction l with
  | nil => cases h
  | cons c rest ih =>
    simp only [List.dropWhile]
    rcases List.mem_cons.mp h with h1 | h1
    · subst h1; simp
    · split
      · exact ih h1
      · simp

/-- Fuelled worker for `splitBraces`; each recursive step consumes at
least two characters, so any fuel of at least the input length is enough
(the fuel is only an artifact making the recursion structural). -/
def splitBracesF : Nat → Str → List Str
  | 0, cs => [cs]
  | fuel + 1, cs =>
    let pre := cs.takeWhile (fun c => c != '{')
    let rest := cs.dropWhile (fun c => c != '{')
    match rest with
    | [] => [pre]
    | _ :: r2 =>
      match r2.dropWhile (fun c => c != '}') with
      | [] => [pre ++ rest]
      | _ :: r4 =>
        pre :: ('{' :: r2.takeWhile (fun c => c != '}') ++ ['}']) :: splitBracesF fuel r4

/-- `re.split(r'(\{[^}]*\})', t)`: split a template at brace groups,
keeping the captured groups; the result alternates non-matching and
matching pieces (starting and ending with a non-matching one). -/
def splitBraces (cs : Str) : List Str := splitBracesF cs.length cs

/-- Fuel of at least the input length is sufficient for `splitBracesF`:
any two sufficient fuels agree. -/
theorem splitBracesF_fuel : ∀ {f1 f2 : Nat} {cs : Str},
    cs.length ≤ f1 → cs.length ≤ f2 → splitBracesF f1 cs = splitBracesF f2 cs := by
  intro f1
  induction f1 with
  | zero =>
    intro f2 cs h1 _
    have : cs = [] := List.length_eq_zero.mp (Nat.le_zero.mp h1)
    subst this
    cases f2 <;> rfl
  | succ k ih =>
    intro f2 cs h1 h2
    cases f2 with
    | zero =>
      have : cs = [] := List.length_eq_zero.mp (Nat.le_zero.mp h2)
      subst this
      rfl
    | succ m =>
      have hrest : (cs.dropWhile (fun c => c != '{')).length ≤ cs.length :=
        length_dropWhile_le' _ cs
      cases hr : cs.dropWhile (fun c => c != '{') with
      | nil => simp only [splitBracesF, hr]
      | cons a r2 =>
        have hr2 : (r2.dropWhile (fun c => c != '}')).length ≤ r2.length :=
          length_dropWhile_le' _ r2
        cases hr3 : r2.dropWhile (fun c => c != '}') with
        | nil => simp only [splitBracesF, hr, hr3]
        | cons b r4 =>
          have hlen : r4.length ≤ k ∧ r4.length ≤ m := by
            rw [hr] at hrest
            rw [hr3] at hr2
            simp only [List.length_cons] at hrest hr2
            omega
          simp only [splitBracesF, hr, hr3]
          rw [ih hlen.1 hlen.2]

/-- The delimiter looked for by the worklist loop:
`delim = '>' if isopt else '<'`. -/
def delimFor (isopt : Bool) : Char := if isopt then '>' else '<'

/-- Length strictly drops when splitting off the part after the first
occurrence of a contained character (Python `w.split(delim, 1)[1]`). -/
theorem length_after_split_lt {delim : Char} {w : Str}
    (h : w.contains delim = true) :
    ((w.dropWhile (fun c => c != delim)).drop 1).length < w.length := by
  have hmem : delim ∈ w := mem_of_contains h
  have h1 : w.dropWhile (fun c => c != delim) ≠ [] := dropWhile_ne_nil_of_mem hmem
  have h2 : (w.dropWhile (fun c => c != delim)).length ≤ w.length :=
    length_dropWhile_le' _ w
  have h3 : 1 ≤ (w.dropWhile (fun c => c != delim)).length := by
    cases hx : w.dropWhile (fun c => c != delim) with
    | nil => exact absurd hx h1
    | cons a b => simp
  simp only [List.length_drop]
  omega

/-- Fuelled worker for the `while barebrac:` worklist loop of
`DataNaming._split_template`: `cur` is the segment currently being
accumulated, `done` the closed segments (the Python code keeps both in
one `segments` list).  Each step strictly decreases
`2 * total-characters + pieces`, so that measure bounds the fuel. -/
def splitLoopF : Nat → List Str → Bool → Bool → List Str → List (List Str) → List (List Str)
  | 0, _, _, _, cur, done => done ++ [cur]
  | _ + 1, [], _, _, cur, done => done ++ [cur]
  | fuel + 1, w :: rest, isopt, isbracket, cur, done =>
    if isbracket || ! w.contains (delimFor isopt) then
      splitLoopF fuel rest isopt (! isbracket) (cur ++ [w]) done
    else
      let wb := w.takeWhile (fun c => c != delimFor isopt)
      let we := (w.dropWhile (fun c => c != delimFor isopt)).drop 1
      splitLoopF fuel (we :: rest) (! isopt) isbracket [] (done ++ [cur ++ [wb]])

/-- The loop measure used as sufficient fuel. -/
def loopFuel (ws : List Str) : Nat := 2 * (ws.map List.length).sum + ws.length

/-- The worklist loop itself. -/
def splitLoop (ws : List Str) (isopt isbracket : Bool) (cur : List Str)
    (done : List (List Str)) : List (List Str) :=
  splitLoopF (loopFuel ws) ws isopt isbracket cur done

/-- Any two fuels bounded below by the loop measure give the same result. -/
theorem splitLoopF_fuel : ∀ {f1 f2 : Nat} {ws : List Str} {isopt isbracket : Bool}
    {cur : List Str} {done : List (List Str)},
    loopFuel ws ≤ f1 → loopFuel ws ≤ f2 →
    splitLoopF f1 ws isopt isbracket cur done = splitLoopF f2 ws isopt isbracket cur done := by
  intro f1
  induction f1 with
  | zero =>
    intro f2 ws isopt isbracket cur done h1 _
    have hws : ws = [] := by
      cases ws with
      | nil => rfl
      | cons w rest =>
        exfalso
        simp only [loopFuel, List.map_cons, List.sum_cons, List.length_cons] at h1
        omega
    subst hws
    cases f2 <;> rfl
  | succ k ih =>
    intro f2 ws isopt isbracket cur done h1 h2
    cases ws with
    | nil => cases f2 with
      | zero => rfl
      | succ m => rfl
    | cons w rest =>
      cases f2 with
      | zero =>
        exfalso
        simp only [loopFuel, List.map_cons, List.sum_cons, List.length_cons] at h2
        omega
      | succ m =>
        simp only [loopFuel, List.map_cons, List.sum_cons, List.length_cons] at h1 h2
        simp only [splitLoopF]
        split
        · apply ih <;>
            (simp only [loopFuel, List.map_cons, List.sum_cons, List.length_cons]
             omega)
        · rename_i hcond
          simp only [Bool.or_eq_true, Bool.not_eq_true'] at hcond
          push_neg at hcond
          have hlt := @length_after_split_lt (delimFor isopt) w (by
            rcases hcond with ⟨hb, hc⟩
            simpa using hc)
          simp only [List.length_drop] at hlt
          apply ih <;>
            (simp only [loopFuel, List.map_cons, List.sum_cons, List.length_cons,
               List.length_drop]
             omega)

/-- `DataNaming._split_template`, before joining and filtering: the raw
`segments` list of lists of pieces. -/
def splitTemplateSegs (t : Str) : List (List Str) :=
  splitLoop (splitBraces t) false false [] []

/-- `DataNaming._split_template`: list of `(segment text, isoptional)`
pairs; the optional flag is the parity of the segment index and empty
segments are dropped. -/
def _split_template (t : Str) : List (Str × Bool) :=
  (splitTemplateSegs t).enum.filterMap (fun p =>
    let s := p.2.flatten
    if s = [] then none else some (s, p.1 % 2 == 1))

/-- The three `ValueError` messages of `DataNaming._validate_template`. -/
inductive TemplateError where
  /-- "template must include \x7bN\x7d" -/
  | missingN
  /-- "Unbalanced segment markers" -/
  | unbalanced
  /-- "Nested or misordered segment markers" -/
  | nestedMarkers
deriving DecidableEq

/-- Regex word character (`\w`, ASCII). -/
def isWordChar (c : Char) : Bool := c.isAlphanum || c == '_'

/-- The `\b` part of `re.search(r'\{N\b', t)` at a position where `{N`
was found: the next character, if any, is not a word character. -/
def nBoundary (rest2 : Str) : Bool :=
  rest2.isEmpty || ! isWordChar (rest2.headD ' ')

/-- `re.search(r'\{N\b', t)`: some position starts `{N` followed by a
word boundary. -/
def hasNField : Str → Bool
  | [] => false
  | c :: rest => (c == '{' && rest.headD ' ' == 'N' && nBoundary rest.tail) || hasNField rest

/-- Fuelled worker for `removeBraceGroups`; every step consumes at least
one character, so the input length bounds the fuel. -/
def removeBraceGroupsF : Nat → Str → Str
  | 0, _ => []
  | _ + 1, [] => []
  | fuel + 1, c :: rest =>
    if c = '{' ∧ rest.contains '}' then
      removeBraceGroupsF fuel ((rest.dropWhile (fun x => x != '}')).drop 1)
    else c :: removeBraceGroupsF fuel rest

/-- `re.sub('[{][^}]*[}]', '', t)`: delete every brace group (a `{`
through the first following `}`). -/
def removeBraceGroups (cs : Str) : Str := removeBraceGroupsF cs.length cs

/-- Any two fuels bounded below by the input length agree. -/
theorem removeBraceGroupsF_fuel : ∀ {f1 f2 : Nat} {cs : Str},
    cs.length ≤ f1 → cs.length ≤ f2 →
    removeBraceGroupsF f1 cs = removeBraceGroupsF f2 cs := by
  intro f1
  induction f1 with
  | zero =>
    intro f2 cs h1 _
    have : cs = [] := List.length_eq_zero.mp (Nat.le_zero.mp h1)
    subst this
    cases f2 <;> rfl
  | succ k ih =>
    intro f2 cs h1 h2
    cases cs with
    | nil => cases f2 with
      | zero => rfl
      | succ m => rfl
    | cons c rest =>
      cases f2 with
      | zero => simp at h2
      | succ m =>
        simp only [removeBraceGroupsF]
        split
        · rename_i hcond
          have hlt := @length_after_split_lt '}' rest (by
            simpa using hcond.2)
          simp only [List.length_cons] at h1 h2
          exact ih (by omega) (by omega)
        · simp only [List.length_cons] at h1 h2
          exact congrArg (c :: ·) (ih (by omega) (by omega))

/-- First alternative `<[^>]<` of the misorder regex: a `<`, exactly one
character other than `>`, then another `<` (the defaults of `headD` make
the window test fail when fewer than three characters remain). -/
def hasLtXLt : Str → Bool
  | [] => false
  | c :: rest =>
    (c == '<' && rest.headD '>' != '>' && rest.tail.headD ' ' == '<') || hasLtXLt rest

/-- Scanner for the second alternative `>[^<]*>`: `seen` records whether a
`>` has occurred with no `<` after it. -/
def gtScan : Str → Bool → Bool
  | [], _ => false
  | c :: rest, seen =>
    if c = '>' then (seen || gtScan rest true)
    else if c = '<' then gtScan rest false
    else gtScan rest seen

/-- Second alternative `>[^<]*>` of the misorder regex: two `>` with no
`<` strictly between them. -/
def hasTwoGtNoLt (cs : Str) : Bool := gtScan cs false

/-- `DataNaming._validate_template`.  Note the source applies the
misorder regex to the whole template `t`, not to `tfixed`. -/
def _validate_template (t : Str) : Except TemplateError Unit :=
  if ! hasNField t then .error .missingN
  else
    let tfixed := removeBraceGroups t
    if tfixed.count '<' ≠ tfixed.count '>' then .error .unbalanced
    else if hasLtXLt t || hasTwoGtNoLt t then .error .nestedMarkers
    else .ok ()

/-! ## Python values and the `str.format` mini-language

`DataNaming._makename` calls `seg.format(**td)`.  The model covers the
features exercised by naming templates: named fields with attribute and
item access, and format specs `[[fill]align][sign][0][width][.prec][type]`
for integers (`d`, `f`) and strings.  `{{`/`}}` escapes, conversions
(`!r`), auto-numbered fields and nested specs are not modelled (no
template in the repository uses them). -/

/-- Python values reachable from a naming binding. -/
inductive PyVal where
  /-- an `int` -/
  | vint (n : Int)
  /-- a `str` -/
  | vstr (s : Str)
  /-- `None` -/
  | vnone
  /-- an object with named attributes and (for mappings) subscript items -/
  | vobj (attrs : List (Str × PyVal)) (items : List (Str × PyVal))

/-- A naming binding (`td` in the source): keyword arguments of `format`. -/
abbrev Binding := List (Str × PyVal)

/-- Python `getattr`: missing attributes (and attribute access on
non-objects) raise `AttributeError`. -/
def pygetattr : PyVal → Str → Except PyErr PyVal
  | .vobj attrs _, name =>
    match attrs.find? (fun e => e.1 == name) with
    | some e => .ok e.2
    | none => .error .attrError
  | _, _ => .error .attrError

/-- Python subscription `v[key]`: missing mapping keys raise `KeyError`,
subscripting a non-container raises `TypeError`. -/
def pygetitem : PyVal → Str → Except PyErr PyVal
  | .vobj _ items, key =>
    match items.find? (fun e => e.1 == key) with
    | some e => .ok e.2
    | none => .error .keyError
  | _, _ => .error .typeError

/-- One step of a field-name access chain. -/
inductive Accessor where
  | attr (name : Str)
  | item (key : Str)

/-- Split a leading identifier (up to `.` or `[`). -/
def parseIdent (cs : Str) : Str × Str :=
  (cs.takeWhile (fun c => c != '.' && c != '['), cs.dropWhile (fun c => c != '.' && c != '['))

/-- Fuelled parser for the accessor chain after the base identifier
(`.attr` and `[key]` steps); `none` models a `ValueError` from a malformed
field name. -/
def parseAccessorsF : Nat → Str → Option (List Accessor)
  | 0, _ => none
  | _ + 1, [] => some []
  | fuel + 1, '.' :: rest =>
    let (nm, r2) := parseIdent rest
    if nm = [] then none
    else (parseAccessorsF fuel r2).map (Accessor.attr nm :: ·)
  | fuel + 1, '[' :: rest =>
    if rest.contains ']' then
      let key := rest.takeWhile (fun c => c != ']')
      let r2 := (rest.dropWhile (fun c => c != ']')).drop 1
      (parseAccessorsF fuel r2).map (Accessor.item key :: ·)
    else none
  | _ + 1, _ => none

/-- Accessor chain parser with sufficient fuel. -/
def parseAccessors (cs : Str) : Option (List Accessor) := parseAccessorsF (cs.length + 1) cs

/-- Resolve a field name such as `e.data[cs700]` against the binding:
the base identifier is looked up among the keyword arguments (`KeyError`
when absent, `IndexError` for positional fields), then the accessor chain
is applied. -/
def resolveField (td : Binding) (name : Str) : Except PyErr PyVal :=
  let (base, restA) := parseIdent name
  if base = [] ∨ base.all Char.isDigit then .error .indexError
  else
    match parseAccessors restA with
    | none => .error .valueError
    | some accs =>
      match td.find? (fun e => e.1 == base) with
      | none => .error .keyError
      | some e =>
        accs.foldlM (fun v a =>
          match a with
          | .attr nm => pygetattr v nm
          | .item k => pygetitem v k) e.2

/-- Split a replacement-field body at the first `:` outside brackets into
field name and format spec. -/
def splitFieldGo : Str → Nat → Str → Str × Str
  | [], _, acc => (acc.reverse, [])
  | c :: rest, d, acc =>
    if c = ':' ∧ d = 0 then (acc.reverse, rest)
    else splitFieldGo rest (if c = '[' then d + 1 else if c = ']' then d - 1 else d) (c :: acc)

/-- Split a field body into `(field_name, format_spec)`. -/
def splitField (cs : Str) : Str × Str := splitFieldGo cs 0 []

/-- Numeric value of a digit string. -/
def natOfDigits (cs : Str) : Nat :=
  cs.foldl (fun acc c => acc * 10 + (c.toNat - 48)) 0

/-- Fuelled decimal rendering of a natural number. -/
def natDigitsF : Nat → Nat → Str
  | 0, _ => []
  | fuel + 1, n =>
    if n < 10 then [Char.ofNat (48 + n)]
    else natDigitsF fuel (n / 10) ++ [Char.ofNat (48 + n % 10)]

/-- Decimal rendering of a natural number. -/
def natDigits (n : Nat) : Str := natDigitsF (n + 1) n

/-- A parsed format spec. -/
structure FmtSpec where
  fill : Char := ' '
  align : Option Char := none
  sign : Option Char := none
  zero : Bool := false
  width : Nat := 0
  precision : Option Nat := none
  typ : Option Char := none

/-- Alignment characters of the format mini-language. -/
def isAlignChar (c : Char) : Bool := c == '<' || c == '>' || c == '^' || c == '='

/-- Parse a format spec `[[fill]align][sign][0][width][.precision][type]`;
`none` models the `ValueError` raised for an invalid spec. -/
def parseFmtSpec (s : Str) : Option FmtSpec :=
  let (fill, align, s1) :=
    match s with
    | a :: b :: rest =>
      if isAlignChar b then (a, some b, rest)
      else if isAlignChar a then (' ', some a, b :: rest)
      else (' ', none, s)
    | [a] => if isAlignChar a then (' ', some a, ([] : Str)) else (' ', none, s)
    | [] => (' ', none, s)
  let (sign, s2) :=
    match s1 with
    | c :: rest => if c == '+' || c == '-' || c == ' ' then (some c, rest) else (none, s1)
    | [] => (none, s1)
  let (zero, s3) :=
    match s2 with
    | '0' :: rest => (true, rest)
    | _ => (false, s2)
  let wdigits := s3.takeWhile Char.isDigit
  let s4 := s3.dropWhile Char.isDigit
  let (prec, s5) :=
    match s4 with
    | '.' :: rest =>
      let pdigits := rest.takeWhile Char.isDigit
      if pdigits = [] then (some (none : Option Nat), rest)
      else (some (some (natOfDigits pdigits)), rest.dropWhile Char.isDigit)
    | _ => (some none, s4)
  match prec with
  | some (none) =>
    if s4 ≠ s5 then none  -- a '.' with no digits is invalid
    else
      match s5 with
      | [] => some { fill, align, sign, zero, width := natOfDigits wdigits }
      | [c] => some { fill, align, sign, zero, width := natOfDigits wdigits, typ := some c }
      | _ => none
  | some (some p) =>
    match s5 with
    | [] => some { fill, align, sign, zero, width := natOfDigits wdigits, precision := some p }
    | [c] => some { fill, align, sign, zero, width := natOfDigits wdigits,
                    precision := some p, typ := some c }
    | _ => none
  | none => none

/-- Pad `sign ++ body` to `width` with `fill` according to `align`. -/
def padTo (fill : Char) (align : Char) (width : Nat) (sign body : Str) : Str :=
  let content := sign ++ body
  if width ≤ content.length then content
  else
    let pad := List.replicate (width - content.length) fill
    if align = '<' then content ++ pad
    else if align = '^' then
      let l := (width - content.length) / 2
      List.replicate l fill ++ content ++ List.replicate (width - content.length - l) fill
    else if align = '=' then sign ++ pad ++ body
    else pad ++ content

/-- The sign string for an integer value under a sign option. -/
def signStr (n : Int) (sign : Option Char) : Str :=
  if n < 0 then ['-']
  else match sign with
    | some '+' => ['+']
    | some ' ' => [' ']
    | _ => []

/-- `format(v, spec)` for the modelled subset. -/
def formatValue (v : PyVal) (spec : Str) : Except PyErr Str :=
  match parseFmtSpec spec with
  | none => .error .valueError
  | some f =>
    let fill := if f.align = none ∧ f.zero then '0' else f.fill
    match v with
    | .vint n =>
      let align := f.align.getD (if f.zero then '=' else '>')
      match f.typ with
      | none | some 'd' =>
        if f.precision.isSome then .error .valueError
        else .ok (padTo fill align f.width (signStr n f.sign) (natDigits n.natAbs))
      | some 'f' =>
        let prec := f.precision.getD 6
        let body := natDigits n.natAbs ++
          (if prec = 0 then [] else '.' :: List.replicate prec '0')
        .ok (padTo fill align f.width (signStr n f.sign) body)
      | _ => .error .valueError
    | .vstr s =>
      if f.zero ∨ f.sign.isSome then .error .valueError
      else
        match f.typ with
        | none | some 's' =>
          let s' := match f.precision with
            | some p => s.take p
            | none => s
          .ok (padTo fill (f.align.getD '<') f.width [] s')
        | _ => .error .valueError
    | .vnone => if spec = [] then .ok (strOf "None") else .error .typeError
    | .vobj _ _ => .error .typeError

/-- Fuelled worker for `seg.format(**td)`. -/
def formatStrF (td : Binding) : Nat → Str → Except PyErr Str
  | 0, _ => .error .valueError
  | _ + 1, [] => .ok []
  | fuel + 1, '{' :: rest =>
    if rest.contains '}' then
      let inner := rest.takeWhile (fun c => c != '}')
      let r2 := (rest.dropWhile (fun c => c != '}')).drop 1
      let (nm, sp) := splitField inner
      match resolveField td nm with
      | .error e => .error e
      | .ok v =>
        match formatValue v sp with
        | .error e => .error e
        | .ok s =>
          match formatStrF td fuel r2 with
          | .error e => .error e
          | .ok t => .ok (s ++ t)
    else .error .valueError
  | _ + 1, '}' :: _ => .error .valueError
  | fuel + 1, c :: rest =>
    match formatStrF td fuel rest with
    | .error e => .error e
    | .ok t => .ok (c :: t)

/-- `seg.format(**td)` for the modelled subset. -/
def formatStr (seg : Str) (td : Binding) : Except PyErr Str :=
  formatStrF td (seg.length + 1) seg

/-! ## DataNaming._makename and DataNaming.__call__ -/

/-- Map a fallible function over a list, stopping at the first error
(the semantics of a Python list comprehension whose body may raise). -/
def exceptMapList {a b : Type} (g : a → Except PyErr b) : List a → Except PyErr (List b)
  | [] => .ok []
  | x :: xs =>
    match g x with
    | .error e => .error e
    | .ok y =>
      match exceptMapList g xs with
      | .error e => .error e
      | .ok ys => .ok (y :: ys)

/-- The segment loop of `DataNaming._makename`: format each segment,
catching `AttributeError`/`KeyError` — which optional segments turn into
an empty contribution and mandatory segments re-raise — and letting every
other exception propagate. -/
def makenameParts : List (Str × Bool) → Binding → Except PyErr (List Str)
  | [], _ => .ok []
  | (seg, isopt) :: rest, td =>
    match formatStr seg td with
    | .ok s =>
      match makenameParts rest td with
      | .error e => .error e
      | .ok tl => .ok (s :: tl)
    | .error e =>
      if e = .attrError ∨ e = .keyError then
        if isopt then
          match makenameParts rest td with
          | .error e2 => .error e2
          | .ok tl => .ok ([] :: tl)
        else .error e
      else .error e

/-- `DataNaming._makename`: join the segment contributions and prepend
the prefix with `os.path.join`. -/
def _makename (pfx : Str) (tparts : List (Str × Bool)) (td : Binding) : Except PyErr Str :=
  match makenameParts tparts td with
  | .error e => .error e
  | .ok parts => .ok (joinPath pfx parts.flatten)

/-- `DataNaming.__call__`: build the base binding from the header and map
`_makename` over the enumerated events (`get_events` is an external
collaborator; its result is the `events` argument). -/
def dataNamingCall (pfx template : Str) (h : PyVal) (events : List PyVal) :
    Except PyErr (List Str) := do
  let tparts := _split_template template
  let start ← pygetattr h (strOf "start")
  let scan_id ← pygetattr start (strOf "scan_id")
  let stp := ((pygetattr h (strOf "stop")).toOption).getD .vnone
  let td : Binding :=
    [(strOf "h", h), (strOf "start", start), (strOf "scan_id", scan_id), (strOf "stop", stp)]
  exceptMapList (fun p =>
    _makename pfx tparts ((strOf "N", .vint p.1) :: (strOf "e", p.2) :: td)) events.enum

/-! ## TiffExporter.__call__ and findExistingTiffs

The filesystem mutations of the export loop are reified as actions; the
`dryordo` helper either performs an action or prints its message, exactly
as the source's `dryordo` lambda does.  Image payloads are opaque ids;
writing a file is modelled as giving it the wall-clock mtime `fs.now`
(the payload bytes themselves are irrelevant to every claim). -/

/-- A reified filesystem mutation of the export loop. -/
inductive FsAction where
  /-- `os.remove(p)` -/
  | remove (p : Str)
  /-- `tifffile.imsave(p, img)` -/
  | write (p : Str) (img : Nat)
  /-- `os.utime(p, (getatime(p), t))` -/
  | setmtime (p : Str) (t : Rat)
deriving DecidableEq

/-- Apply a filesystem action to a snapshot. -/
def applyAction (fs : FS) (a : FsAction) : FS :=
  match a with
  | .remove p => { fs with files := fs.files.filter (fun e => e.1 != fs.resolve p) }
  | .write p _ =>
    { fs with files := (fs.resolve p, fs.now) :: fs.files.filter (fun e => e.1 != fs.resolve p) }
  | .setmtime p t =>
    { fs with files := fs.files.map (fun e => if e.1 == fs.resolve p then (e.1, t) else e) }

/-- State threaded through the export loop: the filesystem, the printed
lines, and the performed actions together with their messages. -/
structure ExpState where
  fs : FS
  printed : List Str
  performed : List (Str × FsAction)
deriving DecidableEq

/-- The source's `dryordo` lambda: print the message under `dryrun`,
otherwise perform the action (the log of performed actions is the
model's observation of the side effects). -/
def dryordo (dryrun : Bool) (msg : Str) (act : FsAction) (st : ExpState) : ExpState :=
  if dryrun then { st with printed := st.printed ++ [msg] }
  else { st with fs := applyAction st.fs act, performed := st.performed ++ [(msg, act)] }

/-- A plain `print` (used for the skip messages in both modes). -/
def printLine (msg : Str) (st : ExpState) : ExpState :=
  { st with printed := st.printed ++ [msg] }

/-- `msgskip.format(f=f, o=o)`. -/
def msgskip (f o : Str) : Str := strOf "skip " ++ f ++ strOf " already saved as " ++ o

/-- `msgrm.format(o)`. -/
def msgrm (o : Str) : Str := strOf "remove existing output " ++ o

/-- `"write image data to {}".format(f)`. -/
def msgwrite (f : Str) : Str := strOf "write image data to " ++ f

/-- Raw rendering of a rational timestamp (stands in for the
`datetime.isoformat` text, whose exact shape is irrelevant). -/
def ratRepr (x : Rat) : Str :=
  (if x.num < 0 then ['-'] else []) ++ natDigits x.num.natAbs ++ '/' :: natDigits x.den

/-- `"adjust image file mtime to {}".format(isotime)`. -/
def msgmtime (t : Rat) : Str := strOf "adjust image file mtime to " ++ ratRepr t

/-- `_makesetofindices(n, select)`: `numpy.arange(n)[select]` as a set.
`select = none` models `None`; a list models an integer index array
(negative indices count from the end, out-of-range ones raise). -/
def _makesetofindices (n : Nat) (select : Option (List Int)) : Except PyErr (List Nat) :=
  match select with
  | none => .ok (List.range n)
  | some idxs =>
    exceptMapList (fun i =>
      if 0 ≤ i ∧ i < (n : Int) then .ok i.toNat
      else if -(n : Int) ≤ i ∧ i < 0 then .ok (i + (n : Int)).toNat
      else .error .indexError) idxs

/-- Insert into an association list with dict semantics (a later
assignment to an existing key overwrites its value in place). -/
def dictInsert (d : List (Str × List Str)) (k : Str) (v : List Str) : List (Str × List Str) :=
  if d.any (fun e => e.1 == k) then d.map (fun e => if e.1 == k then (k, v) else e)
  else d ++ [(k, v)]

/-- Dict lookup. -/
def dictLookup (d : List (Str × List Str)) (k : Str) : Option (List Str) :=
  (d.find? (fun e => e.1 == k)).map (·.2)

/-- Worker for the `foundouts` dict comprehension. -/
def buildFoundoutsAux (cfg : TiffCfg) (fs : FS) :
    List (Str × Rat) → List (Str × List Str) → Except PyErr (List (Str × List Str))
  | [], d => .ok d
  | fe :: rest, d =>
    match outputFileExists cfg fs fe.1 (if cfg.set_mtime then some fe.2 else none) with
    | .error e => .error e
    | .ok r => buildFoundoutsAux cfg fs rest (dictInsert d fe.1 r)

/-- The `foundouts` dict comprehension of `TiffExporter.__call__`,
evaluated against the initial filesystem snapshot (the `dircache` of the
source memoizes `os.listdir` over this same unchanged snapshot). -/
def buildFoundouts (cfg : TiffCfg) (fs : FS) (outputfiles : List Str) (eventtimes : List Rat) :
    Except PyErr (List (Str × List Str)) :=
  buildFoundoutsAux cfg fs (outputfiles.zip eventtimes) []

/-- One iteration of the export loop for record
`(i, (f, (img, etime)))`. -/
def exportStep (cfg : TiffCfg) (dryrun overwrite : Bool) (selection : List Nat)
    (foundouts : List (Str × List Str)) (st : ExpState)
    (rec : Nat × (Str × (Nat × Rat))) : ExpState :=
  let i := rec.1
  let f := rec.2.1
  let img := rec.2.2.1
  let etime := rec.2.2.2
  if ¬ selection.contains i then st
  else
    let existing := (dictLookup foundouts f).getD []
    if ¬ overwrite ∧ existing ≠ [] then
      existing.foldl (fun s o => printLine (msgskip f o) s) st
    else
      let st1 :=
        if ¬ overwrite then existing.foldl (fun s o => printLine (msgskip f o) s) st else st
      let st2 := existing.foldl (fun s o => dryordo dryrun (msgrm o) (.remove o) s) st1
      let st3 := dryordo dryrun (msgwrite f) (.write f img) st2
      if cfg.set_mtime then dryordo dryrun (msgmtime etime) (.setmtime f etime) st3 else st3

/-- `TiffExporter.__call__`: the naming, event-time and image sequences
come from external collaborators and are inputs here.  All existing-output
match sets are computed up front against `fs0`; the loop then applies the
overwrite/skip/dry-run policy per selected record. -/
def tiffExport (cfg : TiffCfg) (fs0 : FS) (outputfiles : List Str) (eventtimes : List Rat)
    (imgs : List Nat) (select : Option (List Int)) (dryrun overwrite : Bool) :
    Except PyErr ExpState := do
  let selection ← _makesetofindices eventtimes.length select
  let foundouts ← buildFoundouts cfg fs0 outputfiles eventtimes
  pure (((List.range eventtimes.length).zip (outputfiles.zip (imgs.zip eventtimes))).foldl
    (exportStep cfg dryrun overwrite selection foundouts) ⟨fs0, [], []⟩)

/-- The `rv.extend(...)` loop of `findExistingTiffs`. -/
def findLoop (cfg : TiffCfg) (fs : FS) (selection : List Nat) :
    List (Nat × (Str × Option Rat)) → List Str → Except PyErr (List Str)
  | [], acc => .ok acc
  | rec :: rest, acc =>
    if ¬ selection.contains rec.1 then findLoop cfg fs selection rest acc
    else
      match outputFileExists cfg fs rec.2.1 rec.2.2 with
      | .error e => .error e
      | .ok m => findLoop cfg fs selection rest (acc ++ m)

/-- `TiffExporter.findExistingTiffs`: per selected record, in index
order, extend the result with that record's match list. -/
def findExistingTiffs (cfg : TiffCfg) (fs : FS) (filenames : List Str) (eventtimes : List Rat)
    (select : Option (List Int)) : Except PyErr (List Str) := do
  let etimes : List (Option Rat) :=
    if cfg.set_mtime then eventtimes.map some else eventtimes.map (fun _ => none)
  let selection ← _makesetofindices etimes.length select
  findLoop cfg fs selection ((List.range etimes.length).zip (filenames.zip etimes)) []

/-! ## Spec-side definitions for the split-template round trip

`specSplit` is written from the specification's words (segments split at
optional-segment markers outside the brace groups located by the same
lexer, each segment remembering whether it lies inside a `<...>` region,
empty segments dropped); it is compared against `_split_template`, which
is translated from the source. -/

/-- An optional-segment marker character. -/
def isMarker (c : Char) : Bool := c == '<' || c == '>'

/-- The markers appearing in the text pieces of a `splitBraces` piece
list, in order; the flag says whether the head piece is a brace group. -/
def pieceMarkers : Bool → List Str → Str
  | _, [] => []
  | true, _ :: rest => pieceMarkers false rest
  | false, w :: rest => w.filter isMarker ++ pieceMarkers true rest

/-- The optional-segment markers outside field expressions, in order. -/
def markersOutside (t : Str) : Str := pieceMarkers false (splitBraces t)

/-- Proper marker ordering: the marker stream alternates, each marker
being the delimiter expected in the current region. -/
def altExpect : Bool → Str → Bool
  | _, [] => true
  | isopt, c :: r => c == delimFor isopt && altExpect (!isopt) r

/-- Spec side: a template with exactly the markers outside brace groups
removed, as a fold over the `splitBraces` pieces. -/
def stripMarkersPieces : Bool → List Str → Str
  | _, [] => []
  | true, w :: rest => w ++ stripMarkersPieces false rest
  | false, w :: rest => w.filter (fun c => ! isMarker c) ++ stripMarkersPieces true rest

/-- Spec side: the original template with the optional-segment markers
outside field expressions removed. -/
def removeMarkersOutside (t : Str) : Str := stripMarkersPieces false (splitBraces t)

/-- Spec side: scan a text piece, closing a segment at every marker and
flipping the optional flag; returns the closed segments, the final flag
and the still-open text. -/
def specChars : Bool → Str → Str → (List (Str × Bool) × Bool × Str)
  | isopt, cur, [] => ([], isopt, cur)
  | isopt, cur, c :: rest =>
    if isMarker c then
      let r := specChars (!isopt) [] rest
      ((cur, isopt) :: r.1, r.2)
    else
      specChars isopt (cur ++ [c]) rest

/-- Spec side: process the alternating text/brace-group pieces, brace
groups being opaque text. -/
def specPieces : Bool → Bool → Str → List Str → List (Str × Bool)
  | isopt, _, cur, [] => [(cur, isopt)]
  | isopt, true, cur, w :: rest => specPieces isopt false (cur ++ w) rest
  | isopt, false, cur, w :: rest =>
    let r := specChars isopt cur w
    r.1 ++ specPieces r.2.1 true r.2.2 rest

/-- Spec side: split a template at the markers outside field
expressions, flag segments inside a `<...>` region optional, and drop
empty segments. -/
def specSplit (t : Str) : List (Str × Bool) :=
  (specPieces false false [] (splitBraces t)).filter (fun p => p.1 != [])

/-- Alternating Boolean flags of a given length. -/
def parityFlags : Bool → Nat → List Bool
  | _, 0 => []
  | b, n + 1 => b :: parityFlags (!b) n

/-- A flag flipped `n` times. -/
def flipN : Bool → Nat → Bool
  | b, 0 => b
  | b, n + 1 => flipN (!b) n

/-! ## Concrete scenarios used by witnesses -/

/-- Initial filesystem of the C10 demonstration: directory `/out` with no
files; wall clock at 500. -/
def fsC10 : FS := ⟨strOf "/", [], [strOf "/", strOf "/out"], 500⟩
/-- The filesystem after the C10 demonstration run. -/
def fsC10final : FS :=
  ⟨strOf "/", [(strOf "/out/b.tiff", mkRat 10001 100), (strOf "/out/a.tiff", 100)],
   [strOf "/", strOf "/out"], 500⟩
/-- Filesystem for the C5/C6 witnesses: the exact output `scan.tiff` and
a fuzzy sibling `old.tiff` (0.01 s apart) already exist under `/out`. -/
def fsC5 : FS :=
  ⟨strOf "/", [(strOf "/out/scan.tiff", 100), (strOf "/out/old.tiff", mkRat 10001 100)],
   [strOf "/", strOf "/out"], 500⟩
/-- Match sets of the C5 scenario, as computed against `fsC5`. -/
def fndC5 : List (Str × List Str) :=
  [(strOf "/out/scan.tiff", [strOf "/out/scan.tiff", strOf "/out/old.tiff"])]
/-- Result state of the C5 scenario: `overwrite=True` removes the exact
match and the fuzzy sibling, then writes and stamps the output. -/
def stC5 : ExpState :=
  ⟨⟨strOf "/", [(strOf "/out/scan.tiff", 100)], [strOf "/", strOf "/out"], 500⟩,
   [],
   [(msgrm (strOf "/out/scan.tiff"), .remove (strOf "/out/scan.tiff")),
    (msgrm (strOf "/out/old.tiff"), .remove (strOf "/out/old.tiff")),
    (msgwrite (strOf "/out/scan.tiff"), .write (strOf "/out/scan.tiff") 7),
    (msgmtime 100, .setmtime (strOf "/out/scan.tiff") 100)]⟩
/-- Result state of the C6 dry run on the C5 scenario. -/
def stC6 : ExpState :=
  ⟨fsC5,
   [msgrm (strOf "/out/scan.tiff"), msgrm (strOf "/out/old.tiff"),
    msgwrite (strOf "/out/scan.tiff"), msgmtime 100],
   []⟩
/-- Header for the C8 scenario: `h.start.scan_id = 7`. -/
def hdrC8 : PyVal := .vobj [(strOf "start", .vobj [(strOf "scan_id", .vint 7)] [])] []

/-! ## Theorems -/

/-- The fuzzy part of a match list never mentions the exact-match path. -/
theorem not_mem_fuzzyPart (cfg : TiffCfg) (fs : FS) (m : Rat) (fa : Str) (l : List Str) :
    fa ∉ l.filterMap (fun f =>
      if f == fa then none
      else if pabs (rsub (fs.getmtime f) m) < cfg.mtime_window then some f else none) := by
  intro hmem
  rcases List.mem_filterMap.mp hmem with ⟨a, _, hga⟩
  by_cases h1 : a == fa
  · simp [h1] at hga
  · simp only [h1, Bool.false_eq_true, if_false] at hga
    split at hga
    · have : a = fa := by injection hga
      subst this
      simp at h1
    · cases hga

/-- C1: with no target mtime and a non-existing candidate the match list
is empty; an existing candidate's absolute path is always the first
element; and the exact-match path never occurs twice in the result. -/
theorem C1_outputFileExists_exact (cfg : TiffCfg) (fs : FS) (filename : Str)
    (mtime : Option Rat) :
    (fs.pexists filename = false → mtime = none →
      outputFileExists cfg fs filename mtime = .ok []) ∧
    (fs.pexists filename = true → ∀ l, outputFileExists cfg fs filename mtime = .ok l →
      l.head? = some (abspath fs.cwd filename)) ∧
    (∀ l, outputFileExists cfg fs filename mtime = .ok l →
      l.count (abspath fs.cwd filename) ≤ 1) := by
  unfold outputFileExists
  refine ⟨?_, ?_, ?_⟩
  · intro hex hmt
    subst hmt
    simp [truthyTime, hex]
  · intro hex l hl
    split at hl
    · split at hl
      · injection hl with h
        subst h
        rfl
      · cases hld : fs.listdir (abspath fs.cwd (dirname filename)) with
        | none =>
          simp only [hld] at hl
          cases hl
        | some names =>
          simp only [hld] at hl
          injection hl with h
          subst h
          rfl
    · rename_i h'
      exact absurd hex h'
  · intro l hl
    split at hl <;>
    · split at hl
      · injection hl with h
        subst h
        simp
      · cases hld : fs.listdir (abspath fs.cwd (dirname filename)) with
        | none =>
          simp only [hld] at hl
          cases hl
        | some names =>
          simp only [hld] at hl
          injection hl with h
          subst h
          rw [List.count_append, List.count_eq_zero.mpr
            (not_mem_fuzzyPart cfg fs (mtime.getD 0) (abspath fs.cwd filename) _)]
          simp

/-- Filesystem for the C1 witness and the C2 failing input: directory
`/d` holding regular files `a.tiff` and `layout`, both with mtime 100. -/
def fsW1 : FS :=
  ⟨strOf "/d", [(strOf "/d/a.tiff", 100), (strOf "/d/layout", 100)], [strOf "/d"], 0⟩

/-- Witness for C1 at concrete inputs. -/
theorem C1_outputFileExists_exact_witness :
    outputFileExists {} fsW1 (strOf "nope.tiff") none = Except.ok [] ∧
    List.head? [strOf "/d/a.tiff"] = some (abspath fsW1.cwd (strOf "a.tiff")) ∧
    List.count (abspath fsW1.cwd (strOf "a.tiff")) [strOf "/d/a.tiff"] ≤ 1 :=
  ⟨(C1_outputFileExists_exact {} fsW1 (strOf "nope.tiff") none).1 (by decide) rfl,
   (C1_outputFileExists_exact {} fsW1 (strOf "a.tiff") none).2.1 (by decide) _ (by decide),
   (C1_outputFileExists_exact {} fsW1 (strOf "a.tiff") none).2.2 _ (by decide)⟩

/-- C2 (failing input): for candidate `out.tiff` with target mtime 100 in
directory `/d`, the fuzzy check includes the sibling `layout` — a regular
file whose extension `""` differs from the candidate's `".tiff"` — because
`ext = os.path.splitext(filename)` binds the whole `(root, ext)` pair and
`f.endswith(ext)` therefore also accepts names ending in the root `"out"`.
The claim (and the source's own docstring, which promises to "match tiff
files") requires extension equality, so only same-extension siblings may
appear. -/
theorem C2_outputFileExists_extension_bug :
    outputFileExists {} fsW1 (strOf "out.tiff") (some 100) =
      .ok [strOf "/d/a.tiff", strOf "/d/layout"] ∧
    splitext (strOf "out.tiff") = (strOf "out", strOf ".tiff") ∧
    splitext (strOf "/d/layout") = (strOf "/d/layout", strOf "") ∧
    fsW1.isfile (strOf "/d/layout") = true := by
  refine ⟨by decide, by decide, by decide, by decide⟩

/-- If the segment loop succeeds, every mandatory segment formatted
successfully and every failing optional segment failed with exactly
`AttributeError` or `KeyError`. -/
theorem makenameParts_ok_segment :
    ∀ {tparts : List (Str × Bool)} {td : Binding} {parts : List Str} {seg : Str} {isopt : Bool},
    makenameParts tparts td = .ok parts → (seg, isopt) ∈ tparts →
    (∃ s, formatStr seg td = .ok s) ∨
      (isopt = true ∧
        (formatStr seg td = .error .attrError ∨ formatStr seg td = .error .keyError)) := by
  intro tparts
  induction tparts with
  | nil =>
    intro td parts seg isopt _ hmem
    cases hmem
  | cons p rest ih =>
    intro td parts seg isopt hok hmem
    obtain ⟨s0, o0⟩ := p
    simp only [makenameParts] at hok
    rcases List.mem_cons.mp hmem with heq | hmem2
    · injection heq with h1 h2
      subst h1
      subst h2
      cases hf : formatStr seg td with
      | ok s => exact Or.inl ⟨s, rfl⟩
      | error e =>
        simp only [hf] at hok
        by_cases he : e = PyErr.attrError ∨ e = PyErr.keyError
        · rw [if_pos he] at hok
          cases ho : isopt with
          | true =>
            refine Or.inr ⟨rfl, ?_⟩
            rcases he with he | he
            · subst he
              exact Or.inl rfl
            · subst he
              exact Or.inr rfl
          | false =>
            rw [ho] at hok
            simp at hok
        · rw [if_neg he] at hok
          cases hok
    · cases hf : formatStr s0 td with
      | ok s =>
        simp only [hf] at hok
        cases hrest : makenameParts rest td with
        | error e2 =>
          simp only [hrest] at hok
          cases hok
        | ok tl => exact ih hrest hmem2
      | error e =>
        simp only [hf] at hok
        split at hok
        · split at hok
          · cases hrest : makenameParts rest td with
            | error e2 =>
              simp only [hrest] at hok
              cases hok
            | ok tl => exact ih hrest hmem2
          · cases hok
        · cases hok

/-- Processing one segment on top of two tails with equal flattened
results gives equal flattened results (the head step depends only on the
head segment). -/
theorem makenameParts_cons_congr (s0 : Str) (o0 : Bool) (td : Binding)
    {L1 L2 : List (Str × Bool)}
    (h : (makenameParts L1 td).map List.flatten = (makenameParts L2 td).map List.flatten) :
    (makenameParts ((s0, o0) :: L1) td).map List.flatten =
      (makenameParts ((s0, o0) :: L2) td).map List.flatten := by
  cases hf : formatStr s0 td with
  | ok s =>
    simp only [makenameParts, hf]
    cases hA : makenameParts L1 td <;> cases hB : makenameParts L2 td <;>
      simp only [hA, hB, Except.map, Except.error.injEq, Except.ok.injEq,
        List.flatten_cons, reduceCtorEq] at h ⊢
    · exact h
    · rw [h]
  | error e =>
    by_cases he : e = PyErr.attrError ∨ e = PyErr.keyError
    · cases ho : o0 with
      | true =>
        simp only [makenameParts, hf, if_pos he, if_true]
        cases hA : makenameParts L1 td <;> cases hB : makenameParts L2 td <;>
          simp only [hA, hB, Except.map, Except.error.injEq, Except.ok.injEq,
            List.flatten_cons, List.nil_append, reduceCtorEq] at h ⊢
        · exact h
        · rw [h]
      | false =>
        simp only [makenameParts, hf, if_pos he, Bool.false_eq_true, if_false]
    · simp only [makenameParts, hf, if_neg he]

/-- Dropping a failing optional segment (failure class `AttributeError` or
`KeyError`) does not change the flattened expansion. -/
theorem makenameParts_skip_optional {seg : Str} {td : Binding}
    (hseg : formatStr seg td = .error .attrError ∨ formatStr seg td = .error .keyError) :
    ∀ (pre post : List (Str × Bool)),
      (makenameParts (pre ++ (seg, true) :: post) td).map List.flatten =
      (makenameParts (pre ++ post) td).map List.flatten := by
  intro pre
  induction pre with
  | nil =>
    intro post
    simp only [List.nil_append]
    have hstep : makenameParts ((seg, true) :: post) td =
        match makenameParts post td with
        | .error e2 => .error e2
        | .ok tl => .ok ([] :: tl) := by
      simp only [makenameParts]
      rcases hseg with hs | hs <;> rw [hs] <;> simp
    rw [hstep]
    cases hrest : makenameParts post td <;> simp [Except.map]
  | cons p pre ih =>
    intro post
    obtain ⟨s0, o0⟩ := p
    rw [List.cons_append, List.cons_append]
    exact makenameParts_cons_congr s0 o0 td (ih post)

/-- Header and event for the C3 end-to-end scenario: the event has no
`temp` attribute. -/
def hdrC3 : PyVal := .vobj [(strOf "start", .vobj [(strOf "scan_id", .vint 1)] [])] []

/-- The C3 event record (no `temp` attribute). -/
def evC3 : PyVal := .vobj [] []

/-- C3: a failing mandatory segment fails the whole expansion; an optional
segment failing with `AttributeError`/`KeyError` contributes the empty
string, leaving all other segments unchanged; any other failure class is
not swallowed for optional segments; and the end-to-end scenario
`img{N:03d}<-T{e.temp:03.1f}>.tiff` against a record lacking `temp`
yields `img000.tiff`. -/
theorem C3_makename_optional_segments (pfx : Str) :
    (∀ (tparts : List (Str × Bool)) (td : Binding) (seg : Str) (e : PyErr),
      (seg, false) ∈ tparts → formatStr seg td = .error e →
      ∀ s, _makename pfx tparts td ≠ .ok s) ∧
    (∀ (tparts : List (Str × Bool)) (td : Binding) (seg : Str) (e : PyErr),
      (seg, true) ∈ tparts → formatStr seg td = .error e →
      e ≠ .attrError → e ≠ .keyError →
      ∀ s, _makename pfx tparts td ≠ .ok s) ∧
    (∀ (pre post : List (Str × Bool)) (td : Binding) (seg : Str),
      (formatStr seg td = .error .attrError ∨ formatStr seg td = .error .keyError) →
      _makename pfx (pre ++ (seg, true) :: post) td = _makename pfx (pre ++ post) td) ∧
    dataNamingCall (strOf "") (strOf "img{N:03d}<-T{e.temp:03.1f}>.tiff") hdrC3 [evC3] =
      .ok [strOf "img000.tiff"] := by
  refine ⟨?_, ?_, ?_, by decide⟩
  · intro tparts td seg e hmem hf s hok
    unfold _makename at hok
    cases hp : makenameParts tparts td with
    | error e2 => rw [hp] at hok; cases hok
    | ok parts =>
      rcases makenameParts_ok_segment hp hmem with ⟨s2, hs2⟩ | ⟨hopt, _⟩
      · rw [hf] at hs2; cases hs2
      · cases hopt
  · intro tparts td seg e hmem hf hne1 hne2 s hok
    unfold _makename at hok
    cases hp : makenameParts tparts td with
    | error e2 => rw [hp] at hok; cases hok
    | ok parts =>
      rcases makenameParts_ok_segment hp hmem with ⟨s2, hs2⟩ | ⟨_, herr | herr⟩
      · rw [hf] at hs2; cases hs2
      · rw [hf] at herr; injection herr with h; exact hne1 h
      · rw [hf] at herr; injection herr with h; exact hne2 h
  · intro pre post td seg hseg
    have h := makenameParts_skip_optional hseg pre post
    unfold _makename
    cases hA : makenameParts (pre ++ (seg, true) :: post) td with
    | error e =>
      rw [hA] at h
      cases hB : makenameParts (pre ++ post) td with
      | error e2 =>
        rw [hB] at h
        simp only [Except.map] at h
        injection h with h2
        simp only [hA, hB, h2]
      | ok tl =>
        rw [hB] at h
        simp [Except.map] at h
    | ok tl =>
      rw [hA] at h
      cases hB : makenameParts (pre ++ post) td with
      | error e2 =>
        rw [hB] at h
        simp [Except.map] at h
      | ok tl2 =>
        rw [hB] at h
        simp only [Except.map] at h
        injection h with h2
        simp only [hA, hB, h2]

/-- Witness for C3 at concrete segments and bindings. -/
theorem C3_makename_optional_segments_witness :
    _makename (strOf "") [(strOf "{x}", false)] [] ≠ .ok (strOf "") ∧
    _makename (strOf "") [(strOf "{x:03q}", true)] [(strOf "x", PyVal.vint 3)] ≠
      .ok (strOf "") ∧
    _makename (strOf "") ([] ++ (strOf "-T{e.temp:03.1f}", true) :: [(strOf ".tiff", false)])
        [(strOf "e", PyVal.vobj [] [])] =
      _makename (strOf "") ([] ++ [(strOf ".tiff", false)]) [(strOf "e", PyVal.vobj [] [])] :=
  ⟨(C3_makename_optional_segments (strOf "")).1 _ _ (strOf "{x}") .keyError
      (by decide) (by decide) _,
   (C3_makename_optional_segments (strOf "")).2.1 _ _ (strOf "{x:03q}") .valueError
      (by decide) (by decide) (by decide) (by decide) _,
   (C3_makename_optional_segments (strOf "")).2.2.1 [] [(strOf ".tiff", false)] _
      (strOf "-T{e.temp:03.1f}") (Or.inl (by decide))⟩

/-- Boolean disjunction as a disjunction of equations. -/
theorem bor_iff {a b : Bool} : (a || b) = true ↔ a = true ∨ b = true := by
  cases a <;> cases b <;> simp

/-- The `{N`-scanner finds a match exactly when the template decomposes
around a literal `{N` followed by a word boundary. -/
theorem hasNField_iff (t : Str) : hasNField t = true ↔
    ∃ pre post, t = pre ++ '{' :: 'N' :: post ∧
      (post = [] ∨ ∃ c2 post2, post = c2 :: post2 ∧ isWordChar c2 = false) := by
  induction t with
  | nil =>
    simp only [hasNField]
    constructor
    · intro h
      cases h
    · rintro ⟨pre, post, heq, -⟩
      cases pre <;> simp at heq
  | cons c rest ih =>
    simp only [hasNField]
    constructor
    · intro h
      rcases bor_iff.mp h with hb | hrec
      · rw [Bool.and_eq_true, Bool.and_eq_true] at hb
        obtain ⟨⟨h1, h2⟩, h3⟩ := hb
        have hc : c = '{' := eq_of_beq h1
        cases rest with
        | nil => simp [List.headD] at h2
        | cons r1 rest2 =>
          have hr1 : r1 = 'N' := by simpa [List.headD] using h2
          subst hc
          subst hr1
          refine ⟨[], rest2, rfl, ?_⟩
          cases rest2 with
          | nil => exact Or.inl rfl
          | cons c2 r3 =>
            refine Or.inr ⟨c2, r3, rfl, ?_⟩
            simpa [nBoundary, List.headD] using h3
      · obtain ⟨pre, post, heq, hbd⟩ := ih.mp hrec
        exact ⟨c :: pre, post, by rw [heq, List.cons_append], hbd⟩
    · rintro ⟨pre, post, heq, hbd⟩
      apply bor_iff.mpr
      cases pre with
      | nil =>
        left
        injection heq with h1 h2
        subst h1
        subst h2
        rcases hbd with rfl | ⟨c2, post2, rfl, hw⟩
        · decide
        · simp [nBoundary, List.headD, hw]
      | cons p pre2 =>
        right
        injection heq with h1 h2
        exact ih.mpr ⟨pre2, post, h2, hbd⟩

/-- The `<[^>]<`-scanner finds a match exactly when the template
decomposes as `pre ++ '<' :: c :: '<' :: post` with `c ≠ '>'`. -/
theorem hasLtXLt_iff (t : Str) : hasLtXLt t = true ↔
    ∃ pre c2 post, t = pre ++ '<' :: c2 :: '<' :: post ∧ c2 ≠ '>' := by
  induction t with
  | nil =>
    simp only [hasLtXLt]
    constructor
    · intro h
      cases h
    · rintro ⟨pre, c2, post, heq, -⟩
      cases pre <;> simp at heq
  | cons c rest ih =>
    simp only [hasLtXLt]
    constructor
    · intro h
      rcases bor_iff.mp h with hb | hrec
      · rw [Bool.and_eq_true, Bool.and_eq_true] at hb
        obtain ⟨⟨h1, h2⟩, h3⟩ := hb
        have hc : c = '<' := eq_of_beq h1
        cases rest with
        | nil => simp [List.headD] at h2
        | cons b rest2 =>
          have hb' : b ≠ '>' := by simpa [List.headD] using h2
          cases rest2 with
          | nil => simp [List.headD] at h3
          | cons c3 rest3 =>
            have hc3 : c3 = '<' := by simpa [List.headD] using h3
            subst hc
            subst hc3
            exact ⟨[], b, rest3, rfl, hb'⟩
      · obtain ⟨pre, c2, post, heq, hne⟩ := ih.mp hrec
        exact ⟨c :: pre, c2, post, by rw [heq, List.cons_append], hne⟩
    · rintro ⟨pre, c2, post, heq, hne⟩
      apply bor_iff.mpr
      cases pre with
      | nil =>
        left
        injection heq with h1 h2
        subst h1
        subst h2
        simp [List.headD, hne]
      | cons p pre2 =>
        right
        injection heq with h1 h2
        exact ih.mpr ⟨pre2, c2, post, h2, hne⟩

/-- The scanner for `>[^<]*>`: with `seen` set it also fires on a single
`>` reachable without crossing `<`; in general it fires exactly on two
`>` with no intervening `<`. -/
theorem gtScan_iff : ∀ (l : Str) (seen : Bool), gtScan l seen = true ↔
    ((seen = true ∧ ∃ pre post, l = pre ++ '>' :: post ∧ '<' ∉ pre) ∨
     (∃ pre mid post, l = pre ++ '>' :: (mid ++ '>' :: post) ∧ '<' ∉ mid)) := by
  intro l
  induction l with
  | nil =>
    intro seen
    simp only [gtScan]
    constructor
    · intro h
      cases h
    · rintro (⟨-, pre, post, heq, -⟩ | ⟨pre, mid, post, heq, -⟩) <;> cases pre <;> simp at heq
  | cons c rest ih =>
    intro seen
    by_cases h1 : c = '>'
    · subst h1
      have hg : gtScan ('>' :: rest) seen = (seen || gtScan rest true) := by
        simp [gtScan]
      rw [hg]
      constructor
      · intro h
        rcases bor_iff.mp h with hs | hrec
        · exact Or.inl ⟨hs, [], rest, rfl, by simp⟩
        · rcases (ih true).mp hrec with ⟨-, pre, post, heq, hpre⟩ | ⟨pre, mid, post, heq, hmid⟩
          · exact Or.inr ⟨[], pre, post, by simp [heq], hpre⟩
          · exact Or.inr ⟨'>' :: pre, mid, post, by rw [heq, List.cons_append], hmid⟩
      · intro h
        apply bor_iff.mpr
        rcases h with ⟨hs, -⟩ | ⟨pre, mid, post, heq, hmid⟩
        · exact Or.inl hs
        · right
          cases pre with
          | nil =>
            injection heq with h1 h2
            exact (ih true).mpr (Or.inl ⟨rfl, mid, post, h2, hmid⟩)
          | cons p pre2 =>
            injection heq with h1 h2
            exact (ih true).mpr (Or.inr ⟨pre2, mid, post, h2, hmid⟩)
    · by_cases h2 : c = '<'
      · subst h2
        have hg : gtScan ('<' :: rest) seen = gtScan rest false := by
          simp [gtScan]
        rw [hg, ih false]
        constructor
        · rintro (⟨hf, -⟩ | ⟨pre, mid, post, heq, hmid⟩)
          · cases hf
          · exact Or.inr ⟨'<' :: pre, mid, post, by rw [heq, List.cons_append], hmid⟩
        · rintro (⟨-, pre, post, heq, hpre⟩ | ⟨pre, mid, post, heq, hmid⟩)
          · cases pre with
            | nil => simp at heq
            | cons p pre2 =>
              injection heq with hp hrest
              subst hp
              exact absurd (List.mem_cons_self _ _) hpre
          · cases pre with
            | nil => simp at heq
            | cons p pre2 =>
              injection heq with hp hrest
              exact Or.inr ⟨pre2, mid, post, hrest, hmid⟩
      · have hg : gtScan (c :: rest) seen = gtScan rest seen := by
          simp [gtScan, h1, h2]
        rw [hg, ih seen]
        constructor
        · rintro (⟨hs, pre, post, heq, hpre⟩ | ⟨pre, mid, post, heq, hmid⟩)
          · exact Or.inl ⟨hs, c :: pre, post, by rw [heq, List.cons_append], by
              simp only [List.mem_cons, not_or]
              exact ⟨fun hcc => h2 hcc.symm, hpre⟩⟩
          · exact Or.inr ⟨c :: pre, mid, post, by rw [heq, List.cons_append], hmid⟩
        · rintro (⟨hs, pre, post, heq, hpre⟩ | ⟨pre, mid, post, heq, hmid⟩)
          · cases pre with
            | nil =>
              injection heq with hp hrest
              subst hp
              exact absurd rfl h1
            | cons p pre2 =>
              injection heq with hp hrest
              refine Or.inl ⟨hs, pre2, post, hrest, ?_⟩
              intro hmem
              exact hpre (List.mem_cons_of_mem _ hmem)
          · cases pre with
            | nil =>
              injection heq with hp hrest
              subst hp
              exact absurd rfl h1
            | cons p pre2 =>
              injection heq with hp hrest
              exact Or.inr ⟨pre2, mid, post, hrest, hmid⟩


/-- Spec-side reading of "the template includes a bare `{N}` field": some
position starts `{N` followed by a word boundary (stated as an explicit
decomposition). -/
def specHasBareN (t : Str) : Prop :=
  ∃ pre post, t = pre ++ '{' :: 'N' :: post ∧
    (post = [] ∨ ∃ c2 post2, post = c2 :: post2 ∧ isWordChar c2 = false)

/-- Spec-side reading of "the `<`/`>` counts outside field expressions
balance" (field expressions are the `{...}` groups the validator strips). -/
def specMarkersBalanced (t : Str) : Prop :=
  (removeBraceGroups t).count '<' = (removeBraceGroups t).count '>'

/-- Spec-side reading of the misorder regex `<[^>]<|>[^<]*>` as explicit
decompositions of the whole template: a `<`, one non-`>` character and
another `<`; or two `>` with no `<` strictly between them. -/
def specMisordered (t : Str) : Prop :=
  (∃ pre c2 post, t = pre ++ '<' :: c2 :: '<' :: post ∧ c2 ≠ '>') ∨
  (∃ pre mid post, t = pre ++ '>' :: (mid ++ '>' :: post) ∧ '<' ∉ mid)

/-- The misorder scanner pair agrees with the declarative reading. -/
theorem misordered_iff (t : Str) :
    (hasLtXLt t || hasTwoGtNoLt t) = true ↔ specMisordered t := by
  rw [bor_iff, hasLtXLt_iff]
  unfold hasTwoGtNoLt
  rw [gtScan_iff t false]
  simp [specMisordered]

/-- C4 (amended): validation succeeds iff the template has a bare `{N}`
field, the `<`/`>` counts outside `{...}` groups balance, and the
misorder regex — which the source applies to the whole template,
including format-spec contents inside braces — has no match; each
failure produces the corresponding error. -/
theorem C4_validate_template_amended (t : Str) :
    (_validate_template t = .ok () ↔
      specHasBareN t ∧ specMarkersBalanced t ∧ ¬ specMisordered t) ∧
    (¬ specHasBareN t → _validate_template t = .error .missingN) ∧
    (specHasBareN t → ¬ specMarkersBalanced t → _validate_template t = .error .unbalanced) ∧
    (specHasBareN t → specMarkersBalanced t → specMisordered t →
      _validate_template t = .error .nestedMarkers) := by
  have hN := hasNField_iff t
  have hM := misordered_iff t
  by_cases h1 : hasNField t = true
  · by_cases h2 : (removeBraceGroups t).count '<' = (removeBraceGroups t).count '>'
    · by_cases h3 : (hasLtXLt t || hasTwoGtNoLt t) = true
      · have hv : _validate_template t = .error .nestedMarkers := by
          simp [_validate_template, h1, h2, h3]
        refine ⟨?_, ?_, ?_, ?_⟩
        · rw [hv]
          constructor
          · intro h
            cases h
          · rintro ⟨-, -, hnm⟩
            exact absurd (hM.mp h3) hnm
        · intro hn
          exact absurd (hN.mp h1) hn
        · intro _ hnb
          exact absurd (show specMarkersBalanced t from h2) hnb
        · intro _ _ _
          exact hv
      · have hv : _validate_template t = .ok () := by
          simp [_validate_template, h1, h2, h3]
        refine ⟨?_, ?_, ?_, ?_⟩
        · rw [hv]
          constructor
          · intro _
            exact ⟨hN.mp h1, h2, fun hm => h3 (hM.mpr hm)⟩
          · intro _
            rfl
        · intro hn
          exact absurd (hN.mp h1) hn
        · intro _ hnb
          exact absurd (show specMarkersBalanced t from h2) hnb
        · intro _ _ hm
          exact absurd (hM.mpr hm) h3
    · have hv : _validate_template t = .error .unbalanced := by
        simp [_validate_template, h1, h2]
      refine ⟨?_, ?_, ?_, ?_⟩
      · rw [hv]
        constructor
        · intro h
          cases h
        · rintro ⟨-, hB, -⟩
          exact absurd hB h2
      · intro hn
        exact absurd (hN.mp h1) hn
      · intro _ _
        exact hv
      · intro _ hB _
        exact absurd hB h2
  · have hbf : hasNField t = false := by
      revert h1
      cases hasNField t <;> simp
    have hv : _validate_template t = .error .missingN := by
      simp [_validate_template, hbf]
    refine ⟨?_, ?_, ?_, ?_⟩
    · rw [hv]
      constructor
      · intro h
        cases h
      · rintro ⟨hA, -, -⟩
        exact absurd (hN.mpr hA) h1
    · intro _
      exact hv
    · intro hA _
      exact absurd (hN.mpr hA) h1
    · intro hA _ _
      exact absurd (hN.mpr hA) h1

/-- C4 (counterexample): the template `{N:>3}{s:>3}` has a bare `{N}`
field and no markers at all outside its field expressions — by the claim
it must validate — yet validation rejects it as misordered, because the
source applies the misorder regex to the whole template and the `>` of
the two format specs match `>[^<]*>`. -/
theorem C4_validate_template_counterexample :
    _validate_template (strOf "{N:>3}{s:>3}") = .error .nestedMarkers ∧
    hasNField (strOf "{N:>3}{s:>3}") = true ∧
    removeBraceGroups (strOf "{N:>3}{s:>3}") = [] := by
  refine ⟨by decide, by decide, by decide⟩

/-- Witness for the amended C4 at concrete templates for each error. -/
theorem C4_validate_template_amended_witness :
    _validate_template (strOf "a<b>") = .error .missingN ∧
    _validate_template (strOf "{N}<a") = .error .unbalanced ∧
    _validate_template (strOf "{N}<<a>>") = .error .nestedMarkers :=
  ⟨(C4_validate_template_amended (strOf "a<b>")).2.1
      (fun hA => absurd ((hasNField_iff _).mpr hA) (by decide)),
   (C4_validate_template_amended (strOf "{N}<a")).2.2.1
      ⟨[], strOf "\x7d<a", by decide, Or.inr ⟨'}', strOf "<a", by decide, by decide⟩⟩
      (by simp only [specMarkersBalanced]; decide),
   (C4_validate_template_amended (strOf "{N}<<a>>")).2.2.2
      ⟨[], strOf "\x7d<<a>>", by decide, Or.inr ⟨'}', strOf "<<a>>", by decide, by decide⟩⟩
      (by simp only [specMarkersBalanced]; decide)
      (Or.inr ⟨strOf "{N}<<a", [], [], by decide, by decide⟩)⟩

/-! ## Decomposition of the export loop

The per-record outcome of the reconciliation state machine: the skip
messages it prints, and the mutations (with their dry-run messages) it
performs. -/

/-- The mutations performed for one record, with their messages: nothing
when the record is unselected or skipped; otherwise the removal of every
existing output, then the write, then (under `set_mtime`) the mtime
stamp. -/
def recBlock (cfg : TiffCfg) (overwrite : Bool) (selection : List Nat)
    (foundouts : List (Str × List Str)) (rec : Nat × (Str × (Nat × Rat))) :
    List (Str × FsAction) :=
  if ¬ selection.contains rec.1 then []
  else
    let f := rec.2.1
    let existing := (dictLookup foundouts f).getD []
    if ¬ overwrite ∧ existing ≠ [] then []
    else
      existing.map (fun o => (msgrm o, FsAction.remove o)) ++
      [(msgwrite f, FsAction.write f rec.2.2.1)] ++
      (if cfg.set_mtime then [(msgmtime rec.2.2.2, FsAction.setmtime f rec.2.2.2)] else [])

/-- The "already saved" messages printed for one record (in both modes):
one per existing output when `overwrite` is false. -/
def recSkips (overwrite : Bool) (selection : List Nat)
    (foundouts : List (Str × List Str)) (rec : Nat × (Str × (Nat × Rat))) : List Str :=
  if ¬ selection.contains rec.1 then []
  else if overwrite then []
  else ((dictLookup foundouts rec.2.1).getD []).map (msgskip rec.2.1)

/-- Everything a dry run prints for one record. -/
def recDryMsgs (cfg : TiffCfg) (overwrite : Bool) (selection : List Nat)
    (foundouts : List (Str × List Str)) (rec : Nat × (Str × (Nat × Rat))) : List Str :=
  recSkips overwrite selection foundouts rec ++
    (recBlock cfg overwrite selection foundouts rec).map Prod.fst

/-- Folding a printed-log append over a list appends the mapped list. -/
theorem foldl_printedAppend {a : Type} (g : a → Str) :
    ∀ (l : List a) (st : ExpState),
      List.foldl (fun s o => ExpState.mk s.fs (s.printed ++ [g o]) s.performed) st l =
        ExpState.mk st.fs (st.printed ++ l.map g) st.performed := by
  intro l
  induction l with
  | nil => intro st; simp
  | cons x xs ih =>
    intro st
    rw [List.foldl_cons, ih]
    simp [List.append_assoc]

/-- Folding an action application over a list applies the actions in
order and appends the log entries. -/
theorem foldl_mutAppend {a : Type} (m : a → Str) (act : a → FsAction) :
    ∀ (l : List a) (st : ExpState),
      List.foldl (fun s o =>
          ExpState.mk (applyAction s.fs (act o)) s.printed (s.performed ++ [(m o, act o)])) st l =
        ExpState.mk (l.foldl (fun fs o => applyAction fs (act o)) st.fs)
          st.printed (st.performed ++ l.map (fun o => (m o, act o))) := by
  intro l
  induction l with
  | nil => intro st; simp
  | cons x xs ih =>
    intro st
    rw [List.foldl_cons, ih]
    simp [List.append_assoc]

/-- One dry step only appends that record's dry messages. -/
theorem exportStep_dry_eq (cfg : TiffCfg) (overwrite : Bool) (selection : List Nat)
    (foundouts : List (Str × List Str)) (st : ExpState) (rec : Nat × (Str × (Nat × Rat))) :
    exportStep cfg true overwrite selection foundouts st rec =
      { st with printed := st.printed ++ recDryMsgs cfg overwrite selection foundouts rec } := by
  by_cases hsel : rec.1 ∈ selection
  · by_cases how : overwrite = true
    · cases hsm : cfg.set_mtime <;>
        simp [exportStep, recDryMsgs, recSkips, recBlock, hsel, how, hsm,
          foldl_printedAppend, dryordo, printLine, List.append_assoc]
    · have how' : overwrite = false := by
        cases overwrite
        · rfl
        · exact absurd rfl how
      by_cases hex : (dictLookup foundouts rec.2.1).getD [] = [] <;>
        cases hsm : cfg.set_mtime <;>
          simp [exportStep, recDryMsgs, recSkips, recBlock, hsel, how', hsm, hex,
            foldl_printedAppend, dryordo, printLine, List.append_assoc]
  · simp [exportStep, recDryMsgs, recSkips, recBlock, hsel]

/-- One wet step applies and logs that record's mutations and prints its
skip messages. -/
theorem exportStep_wet_eq (cfg : TiffCfg) (overwrite : Bool) (selection : List Nat)
    (foundouts : List (Str × List Str)) (st : ExpState) (rec : Nat × (Str × (Nat × Rat))) :
    exportStep cfg false overwrite selection foundouts st rec =
      ⟨(recBlock cfg overwrite selection foundouts rec).foldl
          (fun fs pa => applyAction fs pa.2) st.fs,
       st.printed ++ recSkips overwrite selection foundouts rec,
       st.performed ++ recBlock cfg overwrite selection foundouts rec⟩ := by
  by_cases hsel : rec.1 ∈ selection
  · by_cases how : overwrite = true
    · cases hsm : cfg.set_mtime <;>
        simp [exportStep, recSkips, recBlock, hsel, how, hsm,
          foldl_printedAppend, foldl_mutAppend, dryordo, printLine,
          List.append_assoc, List.foldl_append, List.foldl_map]
    · have how' : overwrite = false := by
        cases overwrite
        · rfl
        · exact absurd rfl how
      by_cases hex : (dictLookup foundouts rec.2.1).getD [] = [] <;>
        cases hsm : cfg.set_mtime <;>
          simp [exportStep, recSkips, recBlock, hsel, how', hsm, hex,
            foldl_printedAppend, foldl_mutAppend, dryordo, printLine,
            List.append_assoc, List.foldl_append, List.foldl_map]
  · simp [exportStep, recSkips, recBlock, hsel]

/-- A dry run of the whole loop only appends the per-record dry messages. -/
theorem tiffRun_dry (cfg : TiffCfg) (ow : Bool) (sel : List Nat)
    (fnd : List (Str × List Str)) :
    ∀ (recs : List (Nat × (Str × (Nat × Rat)))) (st : ExpState),
      recs.foldl (exportStep cfg true ow sel fnd) st =
        { st with printed := st.printed ++ (recs.map (recDryMsgs cfg ow sel fnd)).flatten } := by
  intro recs
  induction recs with
  | nil => intro st; simp
  | cons r rs ih =>
    intro st
    rw [List.foldl_cons, exportStep_dry_eq, ih]
    simp [List.append_assoc]

/-- A wet run of the whole loop applies the per-record mutation blocks in
order, prints the skip messages and logs the blocks. -/
theorem tiffRun_wet (cfg : TiffCfg) (ow : Bool) (sel : List Nat)
    (fnd : List (Str × List Str)) :
    ∀ (recs : List (Nat × (Str × (Nat × Rat)))) (st : ExpState),
      recs.foldl (exportStep cfg false ow sel fnd) st =
        ExpState.mk
          (((recs.map (recBlock cfg ow sel fnd)).flatten).foldl
            (fun fs pa => applyAction fs pa.2) st.fs)
          (st.printed ++ (recs.map (recSkips ow sel fnd)).flatten)
          (st.performed ++ (recs.map (recBlock cfg ow sel fnd)).flatten) := by
  intro recs
  induction recs with
  | nil => intro st; simp
  | cons r rs ih =>
    intro st
    rw [List.foldl_cons, exportStep_wet_eq, ih]
    simp [List.append_assoc, List.foldl_append]

/-- Unfold `tiffExport` once its selection and match sets are fixed. -/
theorem tiffExport_eq (cfg : TiffCfg) (fs0 : FS) (outs : List Str) (times : List Rat)
    (imgs : List Nat) (sel : Option (List Int)) (dr ow : Bool)
    {selection : List Nat} {foundouts : List (Str × List Str)}
    (hsel : _makesetofindices times.length sel = .ok selection)
    (hfnd : buildFoundouts cfg fs0 outs times = .ok foundouts) :
    tiffExport cfg fs0 outs times imgs sel dr ow =
      .ok (((List.range times.length).zip (outs.zip (imgs.zip times))).foldl
        (exportStep cfg dr ow selection foundouts) ⟨fs0, [], []⟩) := by
  unfold tiffExport
  rw [hsel, hfnd]
  rfl

/-- The dry-run message of every wet-run mutation appears, in order,
among the dry run's printed lines. -/
theorem block_msgs_sublist_dry (cfg : TiffCfg) (ow : Bool) (sel : List Nat)
    (fnd : List (Str × List Str)) :
    ∀ (recs : List (Nat × (Str × (Nat × Rat)))),
      ((((recs.map (recBlock cfg ow sel fnd)).flatten).map Prod.fst).Sublist
        ((recs.map (recDryMsgs cfg ow sel fnd)).flatten)) := by
  intro recs
  induction recs with
  | nil => simp
  | cons r rs ih =>
    simp only [List.map_cons, List.flatten_cons, List.map_append]
    refine List.Sublist.append ?_ ih
    unfold recDryMsgs
    exact List.sublist_append_right _ _

/-- C6: a dry run performs no filesystem mutation — the filesystem value
is unchanged and the performed-action log is empty — and every mutation a
real run would perform is surfaced in the dry run's printed lines (its
message appears there, in order). -/
theorem C6_dryrun_frame (cfg : TiffCfg) (fs0 : FS) (outs : List Str) (times : List Rat)
    (imgs : List Nat) (sel : Option (List Int)) (ow : Bool) (stD : ExpState) :
    tiffExport cfg fs0 outs times imgs sel true ow = .ok stD →
    stD.fs = fs0 ∧ stD.performed = [] ∧
    (∀ stW, tiffExport cfg fs0 outs times imgs sel false ow = .ok stW →
      (stW.performed.map Prod.fst).Sublist stD.printed) := by
  intro hD
  unfold tiffExport at hD
  cases hsel : _makesetofindices times.length sel with
  | error e => rw [hsel] at hD; cases hD
  | ok selection =>
    rw [hsel] at hD
    cases hfnd : buildFoundouts cfg fs0 outs times with
    | error e => simp only [Except.bind, Bind.bind] at hD; rw [hfnd] at hD; cases hD
    | ok foundouts =>
      simp only [Except.bind, Bind.bind] at hD
      rw [hfnd] at hD
      injection hD with hD
      rw [tiffRun_dry] at hD
      refine ⟨by rw [← hD], by rw [← hD], ?_⟩
      intro stW hW
      rw [tiffExport_eq cfg fs0 outs times imgs sel false ow hsel hfnd] at hW
      injection hW with hW
      rw [tiffRun_wet] at hW
      rw [← hW, ← hD]
      simp only [List.nil_append]
      exact block_msgs_sublist_dry cfg ow selection foundouts _

/-- C5: in a real (non-dry) run, the performed mutations decompose into
per-record blocks built from the precomputed match sets: a record that is
skipped (overwrite off, non-empty match set) contributes no mutation and
each of its matched paths is reported as already saved; any other
selected record contributes the removal of every matched path, then the
write, then the optional mtime stamp — in that order. -/
theorem C5_overwrite_skip_blocks (cfg : TiffCfg) (fs0 : FS) (outs : List Str)
    (times : List Rat) (imgs : List Nat) (sel : Option (List Int)) (ow : Bool)
    (st : ExpState) {selection : List Nat} {foundouts : List (Str × List Str)}
    (hsel : _makesetofindices times.length sel = .ok selection)
    (hfnd : buildFoundouts cfg fs0 outs times = .ok foundouts)
    (hrun : tiffExport cfg fs0 outs times imgs sel false ow = .ok st) :
    st.performed = ((((List.range times.length).zip (outs.zip (imgs.zip times))).map
        (recBlock cfg ow selection foundouts)).flatten) ∧
    st.printed = ((((List.range times.length).zip (outs.zip (imgs.zip times))).map
        (recSkips ow selection foundouts)).flatten) ∧
    (∀ i f img etime,
      (i, (f, (img, etime))) ∈ (List.range times.length).zip (outs.zip (imgs.zip times)) →
      selection.contains i = true →
      (ow = false → (dictLookup foundouts f).getD [] ≠ [] →
        recBlock cfg ow selection foundouts (i, (f, (img, etime))) = [] ∧
        ∀ o ∈ (dictLookup foundouts f).getD [], msgskip f o ∈ st.printed) ∧
      (recBlock cfg ow selection foundouts (i, (f, (img, etime))) ≠ [] →
        recBlock cfg ow selection foundouts (i, (f, (img, etime))) =
          ((dictLookup foundouts f).getD []).map (fun o => (msgrm o, FsAction.remove o)) ++
            (msgwrite f, FsAction.write f img) ::
              (if cfg.set_mtime then [(msgmtime etime, FsAction.setmtime f etime)] else []))) := by
  rw [tiffExport_eq cfg fs0 outs times imgs sel false ow hsel hfnd] at hrun
  injection hrun with hrun
  rw [tiffRun_wet] at hrun
  have hperf : st.performed = ((((List.range times.length).zip (outs.zip (imgs.zip times))).map
      (recBlock cfg ow selection foundouts)).flatten) := by
    have hc := congrArg ExpState.performed hrun
    simpa using hc.symm
  have hprint : st.printed = ((((List.range times.length).zip (outs.zip (imgs.zip times))).map
      (recSkips ow selection foundouts)).flatten) := by
    have hc := congrArg ExpState.printed hrun
    simpa using hc.symm
  refine ⟨hperf, hprint, ?_⟩
  intro i f img etime hmem hselected
  have hselmem : i ∈ selection := by simpa using hselected
  constructor
  · intro how hne
    constructor
    · simp [recBlock, hselmem, how, hne]
    · intro o ho
      rw [hprint, List.mem_flatten]
      refine ⟨recSkips ow selection foundouts (i, (f, (img, etime))),
        List.mem_map_of_mem _ hmem, ?_⟩
      have hs : recSkips ow selection foundouts (i, (f, (img, etime))) =
          ((dictLookup foundouts f).getD []).map (msgskip f) := by
        simp [recSkips, hselmem, how]
      rw [hs]
      exact List.mem_map_of_mem _ ho
  · intro hnb
    by_cases hskip : ¬ ow = true ∧ (dictLookup foundouts f).getD [] ≠ []
    · exfalso
      apply hnb
      simp [recBlock, hselmem, hskip.1, hskip.2]
    · simp only [recBlock]
      rw [if_neg (by simpa using hselmem)]
      rw [if_neg (by exact hskip)]
      simp

/-- Entries of `dictInsert` are the new pair or old entries. -/
theorem dictInsert_mem {d : List (Str × List Str)} {k : Str} {v : List Str}
    {p : Str × List Str} (hp : p ∈ dictInsert d k v) : p = (k, v) ∨ p ∈ d := by
  unfold dictInsert at hp
  split at hp
  · rcases List.mem_map.mp hp with ⟨q, hq, heq⟩
    by_cases hqk : (q.1 == k) = true
    · rw [if_pos hqk] at heq
      exact Or.inl heq.symm
    · rw [if_neg hqk] at heq
      exact Or.inr (heq ▸ hq)
  · rcases List.mem_append.mp hp with h | h
    · exact Or.inr h
    · exact Or.inl (List.mem_singleton.mp h)

/-- Every entry the `foundouts` fold produces is a match set computed by
`outputFileExists` against the (unchanged) initial filesystem, for some
output/event-time pair of the batch. -/
theorem buildFoundoutsAux_values (cfg : TiffCfg) (fs : FS) (base : List (Str × Rat)) :
    ∀ (l : List (Str × Rat)) (d fnd : List (Str × List Str)),
      (∀ fe ∈ l, fe ∈ base) →
      (∀ p ∈ d, ∃ etime, (p.1, etime) ∈ base ∧
        outputFileExists cfg fs p.1 (if cfg.set_mtime then some etime else none) = .ok p.2) →
      buildFoundoutsAux cfg fs l d = .ok fnd →
      ∀ p ∈ fnd, ∃ etime, (p.1, etime) ∈ base ∧
        outputFileExists cfg fs p.1 (if cfg.set_mtime then some etime else none) = .ok p.2 := by
  intro l
  induction l with
  | nil =>
    intro d fnd _ hd hok
    injection hok with hok
    exact hok ▸ hd
  | cons fe rest ih =>
    intro d fnd hsub hd hok
    simp only [buildFoundoutsAux] at hok
    cases hofe : outputFileExists cfg fs fe.1 (if cfg.set_mtime then some fe.2 else none) with
    | error e =>
      rw [hofe] at hok
      cases hok
    | ok r =>
      rw [hofe] at hok
      refine ih (dictInsert d fe.1 r) fnd
        (fun q hq => hsub q (List.mem_cons_of_mem _ hq)) ?_ hok
      intro p hpmem
      rcases dictInsert_mem hpmem with hnew | hold
      · subst hnew
        exact ⟨fe.2, hsub fe (List.mem_cons_self _ _), hofe⟩
      · exact hd p hold



/-- C10: every match set consumed by the export loop was computed by
`outputFileExists` against the initial filesystem snapshot; consequently a
file written for an earlier record is never reflected in a later record's
match set.  The demonstration: with both outputs initially absent and
event times within the tolerance window of each other, both records are
written — record 1 is not skipped — even though against the final
filesystem its output would fuzzy-match the file just written for
record 0. -/
theorem C10_precomputed_match_sets (cfg : TiffCfg) (fs0 : FS) (outs : List Str)
    (times : List Rat) (foundouts : List (Str × List Str)) :
    (buildFoundouts cfg fs0 outs times = .ok foundouts →
      ∀ p ∈ foundouts, ∃ etime, (p.1, etime) ∈ outs.zip times ∧
        outputFileExists cfg fs0 p.1 (if cfg.set_mtime then some etime else none) = .ok p.2) ∧
    ((tiffExport {} fsC10 [strOf "/out/a.tiff", strOf "/out/b.tiff"]
        [100, mkRat 10001 100] [1, 2] none false false).map
          (fun st => (st.fs, st.performed.map Prod.snd)) =
      .ok (fsC10final,
        [.write (strOf "/out/a.tiff") 1, .setmtime (strOf "/out/a.tiff") 100,
         .write (strOf "/out/b.tiff") 2,
         .setmtime (strOf "/out/b.tiff") (mkRat 10001 100)]) ∧
      outputFileExists {} fsC10 (strOf "/out/b.tiff") (some (mkRat 10001 100)) = .ok [] ∧
      outputFileExists {} fsC10final (strOf "/out/b.tiff") (some (mkRat 10001 100)) =
        .ok [strOf "/out/b.tiff", strOf "/out/a.tiff"]) := by
  constructor
  · intro hok
    exact buildFoundoutsAux_values cfg fs0 (outs.zip times) (outs.zip times) [] foundouts
      (fun fe hfe => hfe) (fun p hp => absurd hp (List.not_mem_nil p)) hok
  · refine ⟨by decide, by decide, by decide⟩




/-- Witness for C5 at the overwrite scenario of the spec. -/
theorem C5_overwrite_skip_blocks_witness :
    stC5.performed = ((((List.range 1).zip ([strOf "/out/scan.tiff"].zip ([7].zip [100]))).map
      (recBlock {} true (List.range 1) fndC5)).flatten) :=
  (@C5_overwrite_skip_blocks {} fsC5 [strOf "/out/scan.tiff"] [100] [7] none true stC5
    (List.range 1) fndC5 (by decide) (by decide) (by decide)).1


/-- Witness for C6: the dry run leaves the filesystem untouched, performs
nothing, and prints a line for each mutation the real run performs. -/
theorem C6_dryrun_frame_witness :
    stC6.fs = fsC5 ∧ stC6.performed = [] ∧
      (stC5.performed.map Prod.fst).Sublist stC6.printed :=
  have h := C6_dryrun_frame {} fsC5 [strOf "/out/scan.tiff"] [100] [7] none true stC6
    (by decide)
  ⟨h.1, h.2.1, h.2.2 stC5 (by decide)⟩

/-- A head character decides `isAbs`. -/
theorem isAbs_cons (c : Char) (t : Str) : isAbs (c :: t) = true ↔ c = '/' := by
  constructor
  · intro h
    unfold isAbs at h
    split at h
    · next heq => injection heq
    · cases h
  · intro h; subst h; rfl

/-- Joining anything onto an absolute prefix stays absolute. -/
theorem isAbs_joinPath (a b : Str) (ha : isAbs a = true) : isAbs (joinPath a b) = true := by
  cases a with
  | nil => simp [isAbs] at ha
  | cons c t =>
    have hc : c = '/' := (isAbs_cons c t).mp ha
    subst hc
    unfold joinPath
    split
    · assumption
    · split <;> rfl

/-- A successful `exceptMapList` has one output per input, in input
order, each produced by the body at that index. -/
theorem exceptMapList_ok {a b : Type} (g : a → Except PyErr b) :
    ∀ {xs : List a} {ys : List b}, exceptMapList g xs = .ok ys →
      ys.length = xs.length ∧
      ∀ i (hx : i < xs.length) (hy : i < ys.length),
        g (xs.get ⟨i, hx⟩) = .ok (ys.get ⟨i, hy⟩) := by
  intro xs
  induction xs with
  | nil =>
    intro ys hok
    injection hok with hok
    subst hok
    exact ⟨rfl, fun i hx _ => absurd hx (Nat.not_lt_zero i)⟩
  | cons x xs ih =>
    intro ys hok
    simp only [exceptMapList] at hok
    cases hg : g x with
    | error e => simp only [hg] at hok; cases hok
    | ok y =>
      simp only [hg] at hok
      cases hrest : exceptMapList g xs with
      | error e => simp only [hrest] at hok; cases hok
      | ok tl =>
        simp only [hrest] at hok
        injection hok with hok
        subst hok
        obtain ⟨hlen, hidx⟩ := ih hrest
        refine ⟨by simp [hlen], ?_⟩
        intro i hx hy
        cases i with
        | zero => simpa using hg
        | succ j =>
          exact hidx j (Nat.lt_of_succ_lt_succ hx) (Nat.lt_of_succ_lt_succ hy)


/-- C8: name generation yields exactly one path per record, in input
order, the record at index `i` expanded with `N` bound to `i`, and each
name joined onto the prefix (hence absolute whenever the prefix is);
for template `scan{scan_id:05d}_{N:03d}.tiff`, prefix `/out` and two
records with `scan_id = 7` the names are `/out/scan00007_000.tiff` and
`/out/scan00007_001.tiff`. -/
theorem C8_name_generation_order (pfx template : Str) (hd : PyVal) (events : List PyVal)
    (names : List Str) (hok : dataNamingCall pfx template hd events = .ok names) :
    (names.length = events.length ∧
    (∃ td : Binding, ∀ i (hi : i < events.length) (hj : i < names.length),
      _makename pfx (_split_template template)
        ((strOf "N", .vint i) :: (strOf "e", events.get ⟨i, hi⟩) :: td) =
        .ok (names.get ⟨i, hj⟩)) ∧
    (∀ i (hj : i < names.length), ∃ s : Str,
      names.get ⟨i, hj⟩ = joinPath pfx s ∧
        (isAbs pfx = true → isAbs (names.get ⟨i, hj⟩) = true))) ∧
    dataNamingCall (strOf "/out") (strOf "scan{scan_id:05d}_{N:03d}.tiff") hdrC8
      [.vnone, .vnone] =
      .ok [strOf "/out/scan00007_000.tiff", strOf "/out/scan00007_001.tiff"] := by
  refine ⟨?_, by decide⟩
  simp only [dataNamingCall, bind, Except.bind] at hok
  cases hstart : pygetattr hd (strOf "start") with
  | error e => simp only [hstart] at hok; cases hok
  | ok start =>
    simp only [hstart] at hok
    cases hsid : pygetattr start (strOf "scan_id") with
    | error e => simp only [hsid] at hok; cases hok
    | ok scanid =>
      simp only [hsid] at hok
      obtain ⟨hlen, hidx⟩ := exceptMapList_ok _ hok
      have hlen' : names.length = events.length := hlen.trans List.enum_length
      refine ⟨hlen', ?_, ?_⟩
      · refine ⟨[(strOf "h", hd), (strOf "start", start), (strOf "scan_id", scanid),
          (strOf "stop", ((pygetattr hd (strOf "stop")).toOption).getD .vnone)], ?_⟩
        intro i hi hj
        have hx : i < events.enum.length := by simpa [List.enum_length] using hi
        have hgot := hidx i hx hj
        have he : events.enum.get ⟨i, hx⟩ = (i, events.get ⟨i, hi⟩) := by
          simp [List.get_eq_getElem, List.getElem_enum]
        rw [he] at hgot
        simpa using hgot
      · intro i hj
        have hi : i < events.length := hlen' ▸ hj
        have hx : i < events.enum.length := by simpa [List.enum_length] using hi
        have hgot := hidx i hx hj
        simp only [_makename] at hgot
        cases hparts : makenameParts (_split_template template)
            ((strOf "N", .vint (events.enum.get ⟨i, hx⟩).1) ::
              (strOf "e", (events.enum.get ⟨i, hx⟩).2) ::
              [(strOf "h", hd), (strOf "start", start), (strOf "scan_id", scanid),
               (strOf "stop", ((pygetattr hd (strOf "stop")).toOption).getD .vnone)]) with
        | error e => simp only [hparts] at hgot; cases hgot
        | ok parts =>
          simp only [hparts] at hgot
          injection hgot with hgot
          exact ⟨parts.flatten, hgot.symm,
            fun hab => hgot ▸ isAbs_joinPath pfx parts.flatten hab⟩

/-- Witness for C8 at the two-record `scan_id = 7` scenario. -/
theorem C8_name_generation_order_witness :
    ([strOf "/out/scan00007_000.tiff", strOf "/out/scan00007_001.tiff"] : List Str).length =
      ([PyVal.vnone, PyVal.vnone] : List PyVal).length :=
  (C8_name_generation_order (strOf "/out") (strOf "scan{scan_id:05d}_{N:03d}.tiff") hdrC8
    [.vnone, .vnone] [strOf "/out/scan00007_000.tiff", strOf "/out/scan00007_001.tiff"]
    (by decide)).1.1

/-- The `rv.extend` loop is exactly: filter the records to the selected
ones, run the read-only match per record in order, and flatten. -/
theorem findLoop_eq (cfg : TiffCfg) (fs : FS) (selection : List Nat) :
    ∀ (recs : List (Nat × (Str × Option Rat))) (acc : List Str),
      findLoop cfg fs selection recs acc =
        (exceptMapList (fun rec => outputFileExists cfg fs rec.2.1 rec.2.2)
          (recs.filter (fun rec => selection.contains rec.1))).map
          (fun ms => acc ++ ms.flatten) := by
  intro recs
  induction recs with
  | nil => intro acc; simp [findLoop, exceptMapList, Except.map]
  | cons rec rest ih =>
    intro acc
    simp only [findLoop]
    by_cases hsel : selection.contains rec.1 = true
    · rw [if_neg (not_not_intro hsel)]
      rw [List.filter_cons_of_pos (by simpa using hsel)]
      simp only [exceptMapList]
      cases hof : outputFileExists cfg fs rec.2.1 rec.2.2 with
      | error e => simp [Except.map]
      | ok m =>
        simp only []
        rw [ih (acc ++ m)]
        cases hrest : exceptMapList (fun rec => outputFileExists cfg fs rec.2.1 rec.2.2)
            (rest.filter (fun rec => selection.contains rec.1)) with
        | error e => simp [hrest, Except.map]
        | ok ys => simp [hrest, Except.map, List.append_assoc]
    · rw [if_pos hsel]
      rw [List.filter_cons_of_neg (by simpa using hsel)]
      exact ih acc

/-- C9: `findExistingTiffs` is a pure function of the filesystem
snapshot — its value is exactly the in-order flattening of the
`outputFileExists` match lists of the selected records, so it performs
only name pairing and existence matching (its type has no filesystem
output, so no removal, write or mtime change is even expressible). -/
theorem C9_findExistingTiffs_readonly (cfg : TiffCfg) (fs : FS) (filenames : List Str)
    (eventtimes : List Rat) (select : Option (List Int)) (selection : List Nat)
    (hsel : _makesetofindices eventtimes.length select = .ok selection) :
    findExistingTiffs cfg fs filenames eventtimes select =
      (exceptMapList (fun rec => outputFileExists cfg fs rec.2.1 rec.2.2)
        (((List.range eventtimes.length).zip (filenames.zip
          (if cfg.set_mtime then eventtimes.map some
           else eventtimes.map (fun _ => none)))).filter
          (fun rec => selection.contains rec.1))).map List.flatten := by
  have hlen : (if cfg.set_mtime then eventtimes.map some
      else eventtimes.map (fun _ => (none : Option Rat))).length = eventtimes.length := by
    split <;> simp
  simp only [findExistingTiffs, bind, Except.bind, hlen, hsel]
  rw [findLoop_eq]
  have hfl : (fun ms : List (List Str) => [] ++ ms.flatten) = List.flatten :=
    funext (fun ms => by simp)
  rw [hfl]

/-- Witness for C9 on the C5 filesystem with a single record. -/
theorem C9_findExistingTiffs_readonly_witness :
    findExistingTiffs {} fsC5 [strOf "/out/scan.tiff"] [(100 : Rat)] none =
      (exceptMapList (fun rec => outputFileExists {} fsC5 rec.2.1 rec.2.2)
        (((List.range ([(100 : Rat)] : List Rat).length).zip ([strOf "/out/scan.tiff"].zip
          (if TiffCfg.set_mtime {} then ([(100 : Rat)] : List Rat).map some
           else ([(100 : Rat)] : List Rat).map (fun _ => none)))).filter
          (fun rec => (List.range 1).contains rec.1))).map List.flatten :=
  C9_findExistingTiffs_readonly {} fsC5 [strOf "/out/scan.tiff"] [100] none
    (List.range 1) (by decide)

/-- Counterexample to C9 as stated: one selected record whose match list
has two elements makes `findExistingTiffs` return a flat two-element list
of paths — the source splices each record's matches into `rv` with
`rv.extend` — not a one-element sequence of per-record existing-file
sets, so the result does not have one entry per selected record and the
per-record set boundaries are lost. -/
theorem C9_findExistingTiffs_readonly_counterexample :
    findExistingTiffs {} fsC5 [strOf "/out/scan.tiff"] [(100 : Rat)] none =
      .ok [strOf "/out/scan.tiff", strOf "/out/old.tiff"] ∧
    outputFileExists {} fsC5 (strOf "/out/scan.tiff") (some 100) =
      .ok [strOf "/out/scan.tiff", strOf "/out/old.tiff"] ∧
    ([strOf "/out/scan.tiff", strOf "/out/old.tiff"] : List Str).length ≠
      ([strOf "/out/scan.tiff"] : List Str).length := by
  refine ⟨by decide, by decide, by decide⟩

/-- Witness for C10's general part at the C5 scenario. -/
theorem C10_precomputed_match_sets_witness :
    ∃ etime, ((strOf "/out/scan.tiff", etime) ∈ [strOf "/out/scan.tiff"].zip [(100 : Rat)] ∧
      outputFileExists {} fsC5 (strOf "/out/scan.tiff")
        (if TiffCfg.set_mtime {} then some etime else none) =
        .ok [strOf "/out/scan.tiff", strOf "/out/old.tiff"]) :=
  (C10_precomputed_match_sets {} fsC5 [strOf "/out/scan.tiff"] [100] fndC5).1
    (by decide) (strOf "/out/scan.tiff", [strOf "/out/scan.tiff", strOf "/out/old.tiff"])
    (by decide)

/-- Concatenating alternating flag runs. -/
theorem parityFlags_append (b : Bool) : ∀ n m : Nat,
    parityFlags b n ++ parityFlags (flipN b n) m = parityFlags b (n + m) := by
  intro n
  induction n generalizing b with
  | zero => intro m; simp [parityFlags, flipN]
  | succ k ih =>
    intro m
    simp only [parityFlags, flipN, List.cons_append]
    rw [ih (!b) m]
    have : k + 1 + m = (k + m) + 1 := by omega
    rw [this]
    rfl

/-- The flags produced by `specChars` alternate from the entry flag, and
the exit flag continues the alternation. -/
theorem specChars_flags (w : Str) : ∀ isopt cur,
    ((specChars isopt cur w).1.map Prod.snd =
      parityFlags isopt (specChars isopt cur w).1.length) ∧
    (specChars isopt cur w).2.1 = flipN isopt (specChars isopt cur w).1.length := by
  induction w with
  | nil => intro isopt cur; exact ⟨rfl, rfl⟩
  | cons c w' ih =>
    intro isopt cur
    by_cases hm : isMarker c = true
    · simp only [specChars, hm, if_true]
      obtain ⟨h1, h2⟩ := ih (!isopt) []
      constructor
      · simp only [List.map_cons, List.length_cons, parityFlags]
        rw [h1]
      · simp only [List.length_cons, flipN]
        exact h2
    · simp only [specChars, hm, if_false, Bool.false_eq_true]
      exact ih isopt (cur ++ [c])

/-- The flags produced by `specPieces` alternate from the entry flag. -/
theorem specPieces_flags : ∀ (ws : List Str) (isopt g : Bool) (cur : Str),
    (specPieces isopt g cur ws).map Prod.snd =
      parityFlags isopt (specPieces isopt g cur ws).length := by
  intro ws
  induction ws with
  | nil => intro isopt g cur; cases g <;> simp [specPieces, parityFlags]
  | cons w rest ih =>
    intro isopt g cur
    cases g with
    | true => exact ih isopt false (cur ++ w)
    | false =>
      simp only [specPieces, List.map_append, List.length_append]
      obtain ⟨h1, h2⟩ := specChars_flags w isopt cur
      rw [h1, ih _ true _, h2]
      exact parityFlags_append isopt _ _

/-- Text conservation of `specChars`: closed segments plus the open text
hold the input minus its markers. -/
theorem specChars_text (w : Str) : ∀ isopt cur,
    ((specChars isopt cur w).1.map Prod.fst).flatten ++ (specChars isopt cur w).2.2 =
      cur ++ w.filter (fun c => ! isMarker c) := by
  induction w with
  | nil => intro isopt cur; simp [specChars]
  | cons c w' ih =>
    intro isopt cur
    by_cases hm : isMarker c = true
    · simp only [specChars, hm, if_true, List.map_cons, List.flatten_cons,
        List.filter_cons, Bool.not_true, List.append_assoc]
      rw [ih (!isopt) []]
      simp
    · simp only [specChars, hm, if_false, Bool.false_eq_true, List.filter_cons]
      rw [ih isopt (cur ++ [c])]
      have hm' : (! isMarker c) = true := by simp [hm]
      simp [hm', List.append_assoc]

/-- Text conservation of `specPieces`: the segment texts hold the pieces
minus the markers of the text pieces. -/
theorem specPieces_text : ∀ (ws : List Str) (isopt g : Bool) (cur : Str),
    ((specPieces isopt g cur ws).map Prod.fst).flatten =
      cur ++ stripMarkersPieces g ws := by
  intro ws
  induction ws with
  | nil => intro isopt g cur; simp [specPieces, stripMarkersPieces]
  | cons w rest ih =>
    intro isopt g cur
    cases g with
    | true =>
      simp only [specPieces, stripMarkersPieces]
      rw [ih isopt false (cur ++ w), List.append_assoc]
    | false =>
      simp only [specPieces, stripMarkersPieces, List.map_append, List.flatten_append]
      rw [ih _ true _]
      rw [← List.append_assoc, specChars_text w isopt cur, List.append_assoc]

/-- The expected delimiter is a marker. -/
theorem isMarker_delimFor (isopt : Bool) : isMarker (delimFor isopt) = true := by
  cases isopt <;> rfl

/-- No marker occurs before the expected delimiter when the marker
stream starts as expected and the delimiter is absent. -/
theorem altExpect_no_delim : ∀ (w : Str) (isopt : Bool) (s : Str),
    altExpect isopt (w.filter isMarker ++ s) = true →
    delimFor isopt ∉ w →
    w.filter isMarker = [] := by
  intro w
  induction w with
  | nil => intro _ _ _ _; rfl
  | cons c w' ih =>
    intro isopt s halt hnc
    have hnc1 : delimFor isopt ≠ c := fun h => hnc (h ▸ List.mem_cons_self c w')
    have hnc2 : delimFor isopt ∉ w' := fun h => hnc (List.mem_cons_of_mem c h)
    by_cases hm : isMarker c = true
    · exfalso
      rw [List.filter_cons_of_pos hm] at halt
      simp only [List.cons_append, altExpect, Bool.and_eq_true] at halt
      have hce : c = delimFor isopt := by simpa using halt.1
      exact hnc1 hce.symm
    · rw [List.filter_cons_of_neg (by simpa using hm)] at halt ⊢
      exact ih isopt s halt hnc2

/-- Splitting a text piece at the first expected delimiter: the prefix
holds no markers, the remainder continues the alternation, and the piece
decomposes around the delimiter. -/
theorem altExpect_delim_split : ∀ (w : Str) (isopt : Bool) (s : Str),
    altExpect isopt (w.filter isMarker ++ s) = true →
    delimFor isopt ∈ w →
    (w.takeWhile (fun c => c != delimFor isopt)).filter isMarker = [] ∧
    altExpect (!isopt)
      ((((w.dropWhile (fun c => c != delimFor isopt)).drop 1).filter isMarker) ++ s) = true ∧
    w = w.takeWhile (fun c => c != delimFor isopt) ++
        delimFor isopt :: (w.dropWhile (fun c => c != delimFor isopt)).drop 1 := by
  intro w
  induction w with
  | nil => intro _ _ _ h; cases h
  | cons c w' ih =>
    intro isopt s halt hmem
    by_cases hc : c = delimFor isopt
    · subst hc
      rw [List.filter_cons_of_pos (isMarker_delimFor isopt)] at halt
      simp only [List.cons_append, altExpect, Bool.and_eq_true] at halt
      refine ⟨?_, ?_, ?_⟩
      · simp [List.takeWhile_cons]
      · simpa [List.dropWhile_cons] using halt.2
      · simp [List.takeWhile_cons, List.dropWhile_cons]
    · have hd : delimFor isopt ∈ w' := by
        rcases List.mem_cons.mp hmem with h1 | h1
        · exact absurd h1.symm hc
        · exact h1
      by_cases hm : isMarker c = true
      · exfalso
        rw [List.filter_cons_of_pos hm] at halt
        simp only [List.cons_append, altExpect, Bool.and_eq_true] at halt
        exact hc (by simpa using halt.1)
      · have hp : (c != delimFor isopt) = true := by simp [hc]
        rw [List.filter_cons_of_neg (by simpa using hm)] at halt
        obtain ⟨h1, h2, h3⟩ := ih isopt s halt hd
        refine ⟨?_, ?_, ?_⟩
        · rw [List.takeWhile_cons, if_pos hp]
          rw [List.filter_cons_of_neg (by simpa using hm)]
          exact h1
        · rw [List.dropWhile_cons, if_pos hp]
          exact h2
        · rw [List.takeWhile_cons, if_pos hp, List.dropWhile_cons, if_pos hp,
            List.cons_append]
          exact congrArg (c :: .) h3

/-- `specChars` on a marker-free piece appends it to the open text. -/
theorem specChars_noMarkers : ∀ (w : Str), w.filter isMarker = [] →
    ∀ isopt cur, specChars isopt cur w = ([], isopt, cur ++ w) := by
  intro w
  induction w with
  | nil => intro _ isopt cur; simp [specChars]
  | cons c w' ih =>
    intro hf isopt cur
    have hm : isMarker c = false := by
      by_cases h : isMarker c = true
      · rw [List.filter_cons_of_pos h] at hf; cases hf
      · simpa using h
    have hf' : w'.filter isMarker = [] := by
      rwa [List.filter_cons_of_neg (by simp [hm])] at hf
    simp only [specChars, hm, Bool.false_eq_true, if_false]
    rw [ih hf' isopt (cur ++ [c])]
    simp

/-- `specChars` on a piece whose first marker follows a marker-free
prefix closes exactly one segment there. -/
theorem specChars_marker : ∀ (wb : Str), wb.filter isMarker = [] →
    ∀ (dm : Char), isMarker dm = true → ∀ (we : Str) (isopt : Bool) (cur : Str),
    specChars isopt cur (wb ++ dm :: we) =
      ((cur ++ wb, isopt) :: (specChars (!isopt) [] we).1, (specChars (!isopt) [] we).2) := by
  intro wb
  induction wb with
  | nil =>
    intro _ dm hdm we isopt cur
    simp only [List.nil_append, specChars, hdm, if_true, List.append_nil]
  | cons c wb' ih =>
    intro hf dm hdm we isopt cur
    have hm : isMarker c = false := by
      by_cases h : isMarker c = true
      · rw [List.filter_cons_of_pos h] at hf; cases hf
      · simpa using h
    have hf' : wb'.filter isMarker = [] := by
      rwa [List.filter_cons_of_neg (by simp [hm])] at hf
    simp only [List.cons_append, specChars, hm, Bool.false_eq_true, if_false]
    simpa [List.append_assoc] using ih hf' dm hdm we isopt (cur ++ [c])

/-- The closed-segments accumulator of the worklist loop is an
append-only prefix of its result. -/
theorem splitLoopF_done : ∀ (f : Nat) (ws : List Str) (isopt isbracket : Bool)
    (cur : List Str) (done : List (List Str)),
    splitLoopF f ws isopt isbracket cur done =
      done ++ splitLoopF f ws isopt isbracket cur [] := by
  intro f
  induction f with
  | zero => intro ws isopt isbracket cur done; cases ws <;> rfl
  | succ k ih =>
    intro ws isopt isbracket cur done
    cases ws with
    | nil => rfl
    | cons w rest =>
      simp only [splitLoopF, List.nil_append]
      split
      · exact ih rest isopt (!isbracket) (cur ++ [w]) done
      · rw [ih _ _ _ _ (done ++ [cur ++ [w.takeWhile (fun c => c != delimFor isopt)]]),
          ih _ _ _ _ ([cur ++ [w.takeWhile (fun c => c != delimFor isopt)]])]
        simp [List.append_assoc]

/-- Refinement of the worklist loop: under properly ordered markers, the
segments it builds carry, in order, exactly the texts of the spec-side
scan. -/
theorem splitLoopF_refines : ∀ (f : Nat) (ws : List Str) (isopt isbracket : Bool)
    (cur : List Str),
    loopFuel ws ≤ f →
    altExpect isopt (pieceMarkers isbracket ws) = true →
    (splitLoopF f ws isopt isbracket cur []).map List.flatten =
      (specPieces isopt isbracket cur.flatten ws).map Prod.fst := by
  intro f
  induction f with
  | zero =>
    intro ws isopt isbracket cur h1 _
    have hws : ws = [] := by
      cases ws with
      | nil => rfl
      | cons w rest =>
        exfalso
        simp only [loopFuel, List.map_cons, List.sum_cons, List.length_cons] at h1
        omega
    subst hws
    cases isbracket <;> simp [splitLoopF, specPieces]
  | succ k ih =>
    intro ws isopt isbracket cur h1 halt
    cases ws with
    | nil => cases isbracket <;> simp [splitLoopF, specPieces]
    | cons w rest =>
      simp only [loopFuel, List.map_cons, List.sum_cons, List.length_cons] at h1
      cases isbracket with
      | true =>
        simp only [splitLoopF]
        rw [if_pos (by simp)]
        have h2 : loopFuel rest ≤ k := by
          simp only [loopFuel]
          omega
        rw [show (!true) = false from rfl]
        rw [ih rest isopt false (cur ++ [w]) h2 (by simpa [pieceMarkers] using halt)]
        have hflat : (cur ++ [w]).flatten = cur.flatten ++ w := by simp
        simp only [specPieces, hflat]
      | false =>
        by_cases hc : w.contains (delimFor isopt) = true
        · simp only [splitLoopF]
          have hmem := mem_of_contains hc
          rw [if_neg (by simpa using hmem)]
          simp only [pieceMarkers] at halt
          obtain ⟨hwb, halt2, hdecomp⟩ := altExpect_delim_split w isopt _ halt hmem
          rw [List.nil_append, splitLoopF_done]
          have hlt := @length_after_split_lt (delimFor isopt) w hc
          have h2 : loopFuel ((w.dropWhile (fun c => c != delimFor isopt)).drop 1 :: rest)
              ≤ k := by
            simp only [loopFuel, List.map_cons, List.sum_cons, List.length_cons,
              List.length_drop] at *
            omega
          rw [List.map_append,
            ih ((w.dropWhile (fun c => c != delimFor isopt)).drop 1 :: rest) (!isopt) false []
              h2 (by simpa [pieceMarkers] using halt2)]
          conv_rhs => rw [hdecomp]
          simp only [specPieces]
          rw [specChars_marker _ hwb _ (isMarker_delimFor isopt)]
          simp [specPieces, List.append_assoc]
        · simp only [splitLoopF]
          have hnm : delimFor isopt ∉ w := fun h => hc (by simpa using h)
          rw [if_pos (by simpa using hnm)]
          simp only [pieceMarkers] at halt
          have hfw : w.filter isMarker = [] := altExpect_no_delim w isopt _ halt hnm
          rw [hfw, List.nil_append] at halt
          have h2 : loopFuel rest ≤ k := by
            simp only [loopFuel]
            omega
          rw [show (!false) = true from rfl]
          rw [ih rest isopt true (cur ++ [w]) h2 halt]
          simp only [specPieces]
          rw [specChars_noMarkers w hfw]
          simp

/-- Parity of a successor as a Boolean flag. -/
theorem parity_succ (k : Nat) : (((k + 1) % 2 == 1) : Bool) = !(k % 2 == 1) := by
  rcases Nat.mod_two_eq_zero_or_one k with h | h <;>
    simp [Nat.add_mod, h]

/-- Enumerated parity-flag filtering agrees with filtering a segment
list whose flags alternate with the enumeration parity. -/
theorem enumFrom_filterMap_parity : ∀ (L : List (List Str)) (S : List (Str × Bool)) (k : Nat),
    L.map List.flatten = S.map Prod.fst →
    S.map Prod.snd = parityFlags (k % 2 == 1) S.length →
    (L.enumFrom k).filterMap (fun p =>
      if p.2.flatten = [] then none else some (p.2.flatten, p.1 % 2 == 1)) =
    S.filter (fun p => p.1 != []) := by
  intro L
  induction L with
  | nil =>
    intro S k htexts _
    have hS : S = [] := by
      cases S with
      | nil => rfl
      | cons s S2 => cases htexts
    subst hS
    rfl
  | cons x L2 ih =>
    intro S k htexts hflags
    cases S with
    | nil => cases htexts
    | cons s S2 =>
      obtain ⟨sx, sb⟩ := s
      simp only [List.map_cons, List.cons.injEq] at htexts
      simp only [List.map_cons, List.length_cons, parityFlags, List.cons.injEq] at hflags
      obtain ⟨hx, htexts2⟩ := htexts
      obtain ⟨hb, hflags2⟩ := hflags
      rw [List.enumFrom_cons]
      simp only [List.filterMap_cons]
      by_cases he : x.flatten = []
      · rw [if_pos he]
        rw [List.filter_cons_of_neg (by simp [← hx, he])]
        exact ih S2 (k + 1) htexts2 (by rw [hflags2, ← parity_succ])
      · rw [if_neg he]
        rw [List.filter_cons_of_pos (by simp [← hx, he])]
        rw [ih S2 (k + 1) htexts2 (by rw [hflags2, ← parity_succ])]
        simp [← hx, hb]

/-- Under properly ordered markers, `_split_template` equals the
spec-side `specSplit`. -/
theorem split_template_refines (t : Str)
    (hmark : altExpect false (markersOutside t) = true) :
    _split_template t = specSplit t := by
  have hT := splitLoopF_refines (loopFuel (splitBraces t)) (splitBraces t) false false []
    (Nat.le_refl _) hmark
  have hF := specPieces_flags (splitBraces t) false false []
  have henum : ∀ l : List (List Str), l.enum = l.enumFrom 0 := fun _ => rfl
  unfold _split_template splitTemplateSegs splitLoop
  rw [henum]
  exact enumFrom_filterMap_parity _ _ 0 (by simpa using hT) (by simpa using hF)

/-- Dropping empty-text segments does not change the concatenated text. -/
theorem flatten_filter_ne_nil : ∀ S : List (Str × Bool),
    ((S.filter (fun p => p.1 != [])).map Prod.fst).flatten = (S.map Prod.fst).flatten := by
  intro S
  induction S with
  | nil => rfl
  | cons s S2 ih =>
    by_cases he : s.1 = []
    · rw [List.filter_cons_of_neg (by simp [he])]
      simp [ih, he]
    · rw [List.filter_cons_of_pos (by simp [he])]
      simp [ih]

/-- No segment of `_split_template` has empty text. -/
theorem mem_split_template_ne_nil {t : Str} {p : Str × Bool}
    (hp : p ∈ _split_template t) : p.1 ≠ [] := by
  simp only [_split_template, List.mem_filterMap] at hp
  obtain ⟨q, _, he⟩ := hp
  by_cases h : q.2.flatten = []
  · simp [h] at he
  · simp only [h, if_neg h] at he
    injection he with he
    intro hnil
    rw [← he] at hnil
    exact h hnil

/-- C7 (amended): the original round-trip claim fails on templates such
as `\x7bN\x7d>a<` that pass validation with misordered markers; for a
validated template whose markers outside field expressions are properly
ordered (`altExpect`), parsing equals the spec-side region scan
`specSplit` — so every segment from inside a `<...>` region is flagged
optional and every other segment mandatory — the concatenated segment
texts are the template with exactly those markers removed, and no
produced segment has empty text (the last part holds unconditionally). -/
theorem C7_split_template_roundtrip_amended (t : Str)
    (hval : _validate_template t = .ok ())
    (hmark : altExpect false (markersOutside t) = true) :
    _split_template t = specSplit t ∧
    ((_split_template t).map Prod.fst).flatten = removeMarkersOutside t ∧
    ∀ p ∈ _split_template t, p.1 ≠ [] := by
  have _hv := hval
  have href := split_template_refines t hmark
  refine ⟨href, ?_, fun p hp => mem_split_template_ne_nil hp⟩
  rw [href]
  unfold specSplit removeMarkersOutside
  rw [flatten_filter_ne_nil, specPieces_text]
  simp

/-- Witness for C7 at the optional-temperature template of the spec. -/
theorem C7_split_template_roundtrip_amended_witness :
    _split_template (strOf "img{N:03d}<-T{e.temp:03.1f}>.tiff") =
      specSplit (strOf "img{N:03d}<-T{e.temp:03.1f}>.tiff") ∧
    ((_split_template (strOf "img{N:03d}<-T{e.temp:03.1f}>.tiff")).map Prod.fst).flatten =
      removeMarkersOutside (strOf "img{N:03d}<-T{e.temp:03.1f}>.tiff") ∧
    ∀ p ∈ _split_template (strOf "img{N:03d}<-T{e.temp:03.1f}>.tiff"), p.1 ≠ [] :=
  C7_split_template_roundtrip_amended (strOf "img{N:03d}<-T{e.temp:03.1f}>.tiff")
    (by decide) (by decide)

/-- Counterexample to C7 as stated: `\x7bN\x7d>a<` passes validation,
yet reassembling its parse keeps the stray `>` instead of dropping the
markers, and the whole `>a` tail lands in a mandatory segment. -/
theorem C7_split_template_roundtrip_counterexample :
    _validate_template (strOf "{N}>a<") = .ok () ∧
    ((_split_template (strOf "{N}>a<")).map Prod.fst).flatten ≠
      removeMarkersOutside (strOf "{N}>a<") ∧
    _split_template (strOf "{N}>a<") = [(strOf "{N}>a", false)] := by
  refine ⟨by decide, by decide, by decide⟩


end Bluesky
